import Mathlib

/-!
Verification of the lab-psu firmware core against its specification.

This file contains shallow embeddings of the core C modules:
  * software/core/process.c    (cooperative processes and the event ring)
  * software/core/scheduler.c  (tick-driven task scheduler on an 8-bit timer)
  * software/core/adc.c        (ADC measurement engine)
  * software/core/spi_slave.c  (framed SPI slave state machine)
  * software/core/spi_master.c (framed SPI master protocol process)
Machine integers are modelled as Nat with explicit reductions modulo 256
(uint8_t) and 65536 (uint16_t) at the points where the C code truncates.
-/

namespace Proc

/-- Capacity of the event ring, PROCESS_CONF_EVENT_QUEUE_SIZE in process.c. -/
def QSIZE : Nat := 16

/-- Modelled from the spec: PROCESS_EVENT_INIT, a reserved event kind from
process.h, which is not under src; its numeric value is immaterial. -/
def PROCESS_EVENT_INIT : Nat := 0

/-- An event ring entry: struct event from process.c (target process, event
kind, opaque data), with pointers modelled as Nat identifiers. -/
structure Event where
  p : Nat
  ev : Nat
  data : Nat
deriving DecidableEq, Repr

/-- The event ring state from process.c: the fixed backing array
event_queue, event_queue_count and event_queue_first. -/
structure PState where
  queue : List Event
  count : Nat
  first : Nat
deriving DecidableEq, Repr

/-- Result type of process_post_event. -/
inductive PostStatus
  | ok
  | queueFull
deriving DecidableEq, Repr

/-- Result type of process_start. -/
inductive StartStatus
  | ok
  | alreadyStarted
deriving DecidableEq, Repr

/-- The state process_init establishes: an empty ring over the static
(zero-initialised) backing array. -/
def process_init : PState :=
  { queue := List.replicate QSIZE ⟨0, 0, 0⟩, count := 0, first := 0 }

/-- Embedding of process_post_event: on a full ring it returns QUEUE_FULL
without touching anything; otherwise it reserves the slot
(first + count) mod QSIZE, increments the count and writes the event there. -/
def process_post_event (s : PState) (e : Event) : PState × PostStatus :=
  if s.count = QSIZE then
    (s, .queueFull)
  else
    let i := (s.first + s.count) % QSIZE
    ({ s with queue := s.queue.set i e, count := s.count + 1 }, .ok)

/-- Embedding of process_execute: with an empty ring it does nothing;
otherwise it reads the event at index first, decrements the count, advances
first modulo QSIZE and delivers the event (returned here). -/
def process_execute (s : PState) : PState × Option Event :=
  if s.count = 0 then
    (s, none)
  else
    let e := s.queue.getD s.first ⟨0, 0, 0⟩
    ({ s with count := s.count - 1, first := (s.first + 1) % QSIZE }, some e)

/-- A foreground or interrupt interaction with the event ring. -/
inductive POp
  | post (e : Event)
  | exec
deriving DecidableEq, Repr

/-- One interaction step; the second component accumulates the events
delivered by process_execute, in delivery order. -/
def pstep : PState × List Event → POp → PState × List Event
  | (s, del), .post e => ((process_post_event s e).1, del)
  | (s, del), .exec =>
    match process_execute s with
    | (s1, none) => (s1, del)
    | (s1, some e) => (s1, del ++ [e])

/-- Run a sequence of ring interactions from the freshly initialised state. -/
def runP (ops : List POp) : PState × List Event :=
  ops.foldl pstep (process_init, [])

/-- Logical content of the ring: the count many events starting at index
first, in ring order. -/
def absQ (s : PState) : List Event :=
  (List.range s.count).map (fun k => s.queue.getD ((s.first + k) % QSIZE) ⟨0, 0, 0⟩)

/-- Reference model written from the words of the spec: a plain bounded FIFO
list of pending events next to the list of delivered events; a post onto a
full queue is rejected, execute pops the head. -/
def specStep : List Event × List Event → POp → List Event × List Event
  | (pend, del), .post e =>
    if pend.length = QSIZE then (pend, del) else (pend ++ [e], del)
  | (pend, del), .exec =>
    match pend with
    | [] => (pend, del)
    | e :: rest => (rest, del ++ [e])

/-- Run the FIFO reference model over the same interaction sequence. -/
def specRun (ops : List POp) : List Event × List Event :=
  ops.foldl specStep ([], [])

/-- Embedding of process_list_contains, which scans the process list for a
pointer. The loop body in process.c never advances the cursor, so the
function is modelled with explicit fuel: the cursor argument is the list
suffix the cursor points at, and one fuel unit is one loop iteration. -/
def process_list_contains : Nat → List Nat → Nat → Option Bool
  | 0, _, _ => none
  | _ + 1, [], _ => some false
  | fuel + 1, q :: rest, p =>
    if q = p then some true else process_list_contains fuel (q :: rest) p

/-- Structural invariant of the event ring state: fixed backing array
length, head index inside the array, count at most the capacity. -/
def PInv (s : PState) : Prop :=
  s.queue.length = QSIZE ∧ s.first < QSIZE ∧ s.count ≤ QSIZE

/-- Embedding of process_start: membership test via process_list_contains
(with fuel), then linking at the head of the process list, protothread
initialisation, and posting of one INIT event into the event ring. -/
def process_start (fuel : Nat) (plist : List Nat) (es : PState) (p : Nat) :
    Option (List Nat × PState × StartStatus) :=
  match process_list_contains fuel plist p with
  | none => none
  | some true => some (plist, es, .alreadyStarted)
  | some false =>
    let es1 := (process_post_event es ⟨p, PROCESS_EVENT_INIT, 0⟩).1
    some (p :: plist, es1, .ok)

end Proc

namespace Sched

/-- Sixteen-bit wrap-around modulus (uint16_t arithmetic). -/
def U16 : Nat := 65536

/-- Eight-bit wrap-around modulus (uint8_t arithmetic, the timer registers). -/
def U8 : Nat := 256

/-- Task arena capacity, SCHED_TASKS_MAX in scheduler.c. -/
def SCHED_TASKS_MAX : Nat := 8

/-- A struct task_node from scheduler.c. The field tick is the uint16_t
deadline written by sched_schedule; gtick is a ghost copy of the deadline
kept as an unbounded Nat (for ok traces, tick = gtick mod 65536); id stands
for the task and data pointers, identifying the task in the execution log. -/
structure TaskNode where
  tick : Nat
  gtick : Nat
  id : Nat
deriving DecidableEq, Repr

/-- Scheduler state: the three task lists (the free list reduced to a slot
count, since free slots carry no observable data), the uint16_t
next_interrupt_tick, the 8-bit timer counter and compare registers, ghost
unbounded mirrors gtime (ticks elapsed since sched_init) and gnit (the
unbounded next interrupt time), the log of executed tasks, and an ok flag
that records whether any sched_schedule call has hit the mis-promoted
reprogram comparison of scheduler.c line 153 (see sched_schedule below). -/
structure SState where
  freeN : Nat
  waiting : List TaskNode
  ready : List TaskNode
  nit : Nat
  cntr : Nat
  compare : Nat
  gtime : Nat
  gnit : Nat
  log : List TaskNode
  ok : Bool
deriving DecidableEq, Repr

/-- Result type of sched_schedule. -/
inductive SchedStatus
  | ok
  | queueFull
deriving DecidableEq, Repr

/-- Result type of sched_exec. -/
inductive ExecStatus
  | executed
  | idle
deriving DecidableEq, Repr

/-- The state sched_init establishes: all slots free, both lists empty,
counter 0, compare register and next_interrupt_tick at TMR_REG_MAX = 255. -/
def sched_init : SState :=
  { freeN := SCHED_TASKS_MAX, waiting := [], ready := [], nit := 255,
    cntr := 0, compare := 255, gtime := 0, gnit := 255, log := [], ok := true }

/-- The waiting-list insertion loop of sched_schedule (scheduler.c lines
145-151): advance while the uint16_t difference node.tick - current_tick is
at most ticks, then link the new node in. -/
def insertW (cur ticks : Nat) (n : TaskNode) : List TaskNode → List TaskNode
  | [] => [n]
  | m :: rest =>
    if (m.tick + U16 - cur % U16) % U16 ≤ ticks then m :: insertW cur ticks n rest
    else n :: m :: rest

/-- Embedding of sched_schedule. With ticks = 0 the slot goes to the ready
tail (ready_queue_put; its tick field is never read afterwards, and its
ghost deadline is the current time). Otherwise the current tick is
reconstructed from next_interrupt_tick minus the uint8_t remaining count
(lines 140-142), the node is sorted into the waiting list, and the compare
register is reprogrammed when the comparison of line 153 holds. That
comparison recomputes the register difference: the two uint8_t operands are
promoted to the 16-bit int of the AVR target, so when the stored compare is
numerically below the counter the difference is negative and is converted
back to a large unsigned 16-bit value for the comparison against ticks
(modelled by diffP below); the intended comparison is against the uint8_t
remaining count of line 141 (tun below). The ok flag records whether the
two agree at every call. -/
def sched_schedule (s : SState) (ticks0 : Nat) (tid : Nat) : SState × SchedStatus :=
  let ticks := ticks0 % U16
  if s.freeN = 0 then
    (s, .queueFull)
  else if ticks = 0 then
    ({ s with freeN := s.freeN - 1,
              ready := s.ready ++ [⟨0, s.gtime, tid⟩] }, .ok)
  else
    let tun := (s.compare + U8 - s.cntr) % U8
    let cur := (s.nit + U16 - tun) % U16
    let gcur := s.gnit - tun
    let n : TaskNode := ⟨(cur + ticks) % U16, gcur + ticks, tid⟩
    let w := insertW cur ticks n s.waiting
    let diffP : Nat := if s.cntr ≤ s.compare then s.compare - s.cntr
                       else U16 - (s.cntr - s.compare)
    let agree : Bool := decide ((ticks < diffP) ↔ (ticks < tun))
    if ticks < diffP then
      ({ s with freeN := s.freeN - 1, waiting := w,
                compare := (s.cntr + ticks) % U8,
                nit := n.tick, gnit := gcur + ticks,
                ok := s.ok && agree }, .ok)
    else
      ({ s with freeN := s.freeN - 1, waiting := w,
                ok := s.ok && agree }, .ok)

/-- The unlink loop of the compare-match interrupt (scheduler.c lines
174-184): split the waiting list into the longest head run of nodes whose
tick is at most current_tick (an absolute uint16_t comparison) and the
remaining suffix. -/
def moveDue (cur : Nat) : List TaskNode → List TaskNode × List TaskNode
  | [] => ([], [])
  | n :: rest =>
    if n.tick ≤ cur then
      let p := moveDue cur rest
      (n :: p.1, p.2)
    else
      ([], n :: rest)

/-- Embedding of the TMR compare-match interrupt handler: move all due
waiting nodes to the ready tail, then arm the compare register for the next
waiting deadline (capped at TMR_REG_MAX = 255, or parked at 255 when no
task waits) and advance next_interrupt_tick by the same amount. -/
def tmrISR (s : SState) : SState :=
  let cur := s.nit
  let p := moveDue cur s.waiting
  let d := match p.2 with
    | [] => 255
    | m :: _ => min ((m.tick + U16 - cur % U16) % U16) 255
  { s with waiting := p.2, ready := s.ready ++ p.1,
           compare := (s.cntr + d) % U8,
           nit := (s.nit + d) % U16,
           gnit := s.gnit + d }

/-- One hardware tick: the 8-bit counter increments and, on matching the
compare register, the compare-match interrupt runs. -/
def advance1 (s : SState) : SState :=
  let s1 := { s with cntr := (s.cntr + 1) % U8, gtime := s.gtime + 1 }
  if s1.cntr = s1.compare then tmrISR s1 else s1

/-- Embedding of sched_exec: pop the ready head, run its callback (logged),
and return the slot to the free list; with an empty ready queue the
scheduler reports idle and changes nothing. -/
def sched_exec (s : SState) : SState × ExecStatus :=
  match s.ready with
  | [] => (s, .idle)
  | n :: rest =>
    ({ s with ready := rest, freeN := s.freeN + 1, log := s.log ++ [n] }, .executed)

/-- A step of the scheduler system: a foreground sched_schedule or
sched_exec call, or one hardware timer tick (which runs the compare-match
interrupt when due). -/
inductive SOp
  | sch (ticks tid : Nat)
  | exec
  | adv
deriving DecidableEq, Repr

/-- Apply one step. -/
def sstep (s : SState) : SOp → SState
  | .sch t i => (sched_schedule s t i).1
  | .exec => (sched_exec s).1
  | .adv => advance1 s

/-- Run a step sequence from the freshly initialised scheduler. -/
def srun (ops : List SOp) : SState :=
  ops.foldl sstep sched_init

/-- The step sequence exhibiting the deadline-order violation: schedule
task 1 with delta 300 at tick 0, let the parked interrupt fire at tick 255,
schedule task 2 with delta 500 (the line 153 comparison mis-fires: the
compare register, re-armed to 44, is numerically below the counter 255),
then at tick 400 schedule task 3 with delta 10 and let ten more ticks pass. -/
def c1ops : List SOp :=
  [.sch 300 1] ++ List.replicate 255 .adv ++ [.sch 500 2]
    ++ List.replicate 145 .adv ++ [.sch 10 3]
    ++ List.replicate 10 .adv ++ [.exec, .exec]

/-- The invariant claimed for the scheduler between calls: the waiting list
is sorted by deadline and, when nonempty, the head deadline equals
next_interrupt_tick. Deadlines are compared through the ghost (unbounded)
copies, which agree with the stored uint16_t deadlines modulo 65536 on ok
traces. -/
def waitingSortedHeadEqNit (s : SState) : Prop :=
  s.waiting.Pairwise (fun a b => a.gtick ≤ b.gtick) ∧
    (∀ n ∈ s.waiting.head?, n.tick = s.nit)

instance (s : SState) : Decidable (waitingSortedHeadEqNit s) := by
  unfold waitingSortedHeadEqNit
  infer_instance

/-- Inductive invariant of the scheduler on traces that never hit the
mis-promoted reprogram comparison: the timer registers mirror the ghost
times modulo 256, next_interrupt_tick mirrors the ghost gnit modulo 65536,
the armed interrupt lies strictly ahead of the current time by at most
TMR_REG_MAX ticks, and every waiting node carries a deadline that is
consistent with its ghost modulo 65536, not earlier than the armed
interrupt, within a 16-bit window of the current time, with the list
sorted by deadline. -/
def SchedInv (s : SState) : Prop :=
  s.cntr = s.gtime % U8 ∧
  s.compare = s.gnit % U8 ∧
  s.nit = s.gnit % U16 ∧
  s.gtime < s.gnit ∧
  s.gnit ≤ s.gtime + 255 ∧
  (∀ n ∈ s.waiting, n.tick = n.gtick % U16 ∧ s.gnit ≤ n.gtick ∧
    n.gtick ≤ s.gtime + 65535) ∧
  s.waiting.Pairwise (fun a b => a.gtick ≤ b.gtick)

instance (s : SState) : Decidable (SchedInv s) := by
  unfold SchedInv
  infer_instance

end Sched

namespace AdcM

/-- State of one adc measurement structure, the fields of adc.c that the
conversion path reads and writes. The oversamples field holds the number of
raw samples per measurement; modelled from the spec (section 3), the valid
values are 1, 4, 16, 64 and 256, since adc.h with the enum encoding is not
under src. The enabled flag models FLAG_ADC_ENABLED inside flags_channel. -/
structure Madc where
  value : Nat
  next_value : Nat
  oversamples_remaining : Nat
  oversamples : Nat
  enabled : Bool
deriving DecidableEq, Repr

/-- The while loop of left_align_value (adc.c lines 236-239). The loop
variable i starts at the uint8_t complement of oversamples; the body
consists of the two expression statements value << 1 and i << 2, which
compute shifts but assign nothing, so no iteration changes i or value. The
fuel argument counts loop iterations; the function returns none when the
fuel runs out, which for i different from 0 is every fuel. -/
def leftAlignLoop : Nat → Nat → Nat → Option Nat
  | 0, _, _ => none
  | _ + 1, 0, v => some v
  | fuel + 1, i + 1, v => leftAlignLoop fuel (i + 1) v

/-- Embedding of left_align_value: i is set to the uint8_t value of
~oversamples, the statement value << 2 changes nothing, and the loop runs
with nothing in its body taking effect. -/
def left_align_value (fuel : Nat) (a : Madc) : Option Madc :=
  match leftAlignLoop fuel (255 - a.oversamples % 256) a.value with
  | none => none
  | some _ => some a

/-- Embedding of handle_completed_conversion (adc.c lines 242-258): when the
measurement is enabled and oversamples_remaining is 0, the accumulated
next_value is latched into value, the remaining counter reloaded to
oversamples, left_align_value applied, and one ADC_MEASUREMENT_COMPLETED
event posted to the owner (the Bool in the result); otherwise the remaining
counter is decremented. The fuel bounds the left_align_value loop. -/
def handle_completed_conversion (fuel : Nat) (a : Madc) : Option (Madc × Bool) :=
  if a.enabled ∧ a.oversamples_remaining = 0 then
    let a1 := { a with value := a.next_value, next_value := 0,
                       oversamples_remaining := a.oversamples }
    match left_align_value fuel a1 with
    | none => none
    | some a2 => some (a2, true)
  else
    some ({ a with oversamples_remaining := a.oversamples_remaining - 1 }, false)

/-- One enabled conversion that passes the skip filter and feeds the raw
sample R: the conversion-complete interrupt accumulates R into next_value
(adc.c lines 313-317) and the foreground process then runs
handle_completed_conversion on the measurement. -/
def convStep (fuel R : Nat) (a : Madc) : Option (Madc × Bool) :=
  handle_completed_conversion fuel { a with next_value := a.next_value + R }

/-- Run n such conversions, collecting whether each posted a completion. -/
def convRun (fuel R : Nat) : Nat → Madc → Option (Madc × List Bool)
  | 0, a => some (a, [])
  | n + 1, a =>
    match convStep fuel R a with
    | none => none
    | some (a1, b) =>
      match convRun fuel R n a1 with
      | none => none
      | some (a2, bs) => some (a2, b :: bs)

end AdcM

namespace AdcI

/-- ADC measurements for the digital-input claim, identified by Nat ids; the
channel of each measurement is fixed at adc_init time and is given by the
chan function threaded through the definitions below. The state carries the
sorted adcs list (as ids), the per-measurement FLAG_ADC_ENABLED bit, and the
per-channel digital-input-disabled bit (the DIDR register): di ch = true
means the digital input of channel ch is currently disabled. -/
structure AState where
  list : List Nat
  enabledF : Nat → Bool
  di : Nat → Bool

/-- Initial state: empty list, no enable flags, all digital inputs active. -/
def adc_reset : AState :=
  { list := [], enabledF := fun _ => false, di := fun _ => false }

/-- The search-and-insert loop of adc_enable (adc.c lines 149-159): walk
while the channel of the cursor is at most the channel of the new
measurement, returning none if the measurement itself is found (the
already-enabled case), else linking it before the first larger channel. -/
def enableIns (chan : Nat → Nat) (m : Nat) : List Nat → Option (List Nat)
  | [] => some [m]
  | a :: rest =>
    if chan a ≤ chan m then
      if a = m then none
      else (enableIns chan m rest).map (fun l => a :: l)
    else
      some (m :: a :: rest)

/-- Embedding of adc_enable: sorted insertion; on success the enable flag is
set and the digital input of the channel is disabled (power saving). The
EVENT_ADC_LIST_CHANGED post is not modelled here since the digital-input
claim does not mention it. -/
def adc_enable (chan : Nat → Nat) (s : AState) (m : Nat) : AState × Bool :=
  match enableIns chan m s.list with
  | none => (s, false)
  | some l =>
    ({ list := l,
       enabledF := fun x => if x = m then true else s.enabledF x,
       di := fun ch => if ch = chan m then true else s.di ch }, true)

/-- The search loop of adc_disable (adc.c lines 182-188): split the list at
the first occurrence of the measurement, returning the elements before it
and after it, or none when it is absent. -/
def disableSplit (m : Nat) : List Nat → Option (List Nat × List Nat)
  | [] => none
  | a :: rest =>
    if a = m then some ([], rest)
    else (disableSplit m rest).map (fun p => (a :: p.1, p.2))

/-- Embedding of adc_disable with the evident intent of adc.c lines 177-216
restored. Modelled from the spec (section 9, known source hazards): the
source file assigns to an undeclared variable other_adc_for_channel at line
185 and uses the non-existent operator &&= at line 206, so it does not
compile; the spec states the intent, a single only_adc_for_channel flag
that is false when any other list entry shares the channel. The flag is
cleared by the scan for any same-channel element before the removed one and
conjoined with the check that the successor (after unlinking) is absent or
on a different channel; the digital input is re-enabled exactly when the
flag survives. -/
def adc_disable (chan : Nat → Nat) (s : AState) (m : Nat) : AState × Bool :=
  match disableSplit m s.list with
  | none => (s, false)
  | some (bef, aft) =>
    let onlyPre := decide (∀ a ∈ bef, chan a ≠ chan m)
    let onlySuc : Bool :=
      match aft with
      | [] => true
      | a :: _ => decide (chan a ≠ chan m)
    let only := onlyPre && onlySuc
    ({ list := bef ++ aft,
       enabledF := fun x => if x = m then false else s.enabledF x,
       di := fun ch => if only ∧ ch = chan m then false else s.di ch }, true)

/-- An enable or disable call on a given measurement. -/
inductive AOp
  | en (m : Nat)
  | dis (m : Nat)
deriving DecidableEq, Repr

/-- Apply one call. -/
def astep (chan : Nat → Nat) (s : AState) : AOp → AState
  | .en m => (adc_enable chan s m).1
  | .dis m => (adc_disable chan s m).1

/-- Run a call sequence from the reset state. -/
def arun (chan : Nat → Nat) (ops : List AOp) : AState :=
  ops.foldl (astep chan) adc_reset

/-- Inductive invariant of the ADC list and the digital-input register: the
list is sorted by channel without duplicates, every listed measurement has
its enable flag set, and the digital input of a channel is disabled exactly
when some listed measurement uses it. -/
def AInv (chan : Nat → Nat) (s : AState) : Prop :=
  s.list.Pairwise (fun a b => chan a ≤ chan b) ∧
  s.list.Nodup ∧
  (∀ m ∈ s.list, s.enabledF m = true) ∧
  (∀ ch, s.di ch = true ↔ ∃ m ∈ s.list, chan m = ch)

end AdcI

namespace Spis

/-- Receive buffer capacity, SPIS_RX_BUF_SIZE in spi_slave.c. -/
def SPIS_RX_BUF_SIZE : Nat := 32

/-- Modelled from the spec: the reserved padding type byte (spi_common.h is
not under src). Error type values are strictly greater than this one. -/
def SPI_TYPE_PREPARING_RESPONSE : Nat := 240

/-- Modelled from the spec: smallest error type value. -/
def SPI_ERR_TYPE_MIN : Nat := 241

/-- Modelled from the spec: error type for an oversized request. -/
def SPI_TYPE_ERR_MESSAGE_TOO_LARGE : Nat := 241

/-- Modelled from the spec: error type for a failed request CRC check. -/
def SPI_TYPE_ERR_CRC_FAILURE : Nat := 242

/-- Modelled from the spec: error type loaded when the slave is not ready. -/
def SPI_TYPE_ERR_SLAVE_NOT_READY : Nat := 243

/-- Modelled from the spec: error type for an invalid callback response. -/
def SPI_TYPE_ERR_SLAVE_RESPONSE_INVALID : Nat := 244

/-- Modelled from the spec: the SPIS_MESSAGE_RECEIVED event kind from
events.h, which is not under src; the numeric value is immaterial. -/
def SPIS_MESSAGE_RECEIVED : Nat := 40

/-- Modelled from the spec: the SPIS_RESPONSE_TRANSMITTED event kind. -/
def SPIS_RESPONSE_TRANSMITTED : Nat := 41

/-- Modelled from the spec: the SPIS_RESPONSE_ERROR event kind. -/
def SPIS_RESPONSE_ERROR : Nat := 42

/-- The enum spis_trx_status from spi_slave.c. -/
inductive Status
  | ready
  | receivingSize
  | receivingPayload
  | receivingFooter0
  | receivingFooter1
  | waitingForCallback
  | sendResponseSize
  | sendResponsePayload
  | sendFooter0
  | sendFooter1
  | completed
  | waitingForTransferToEnd
  | abortedWhileWaitingForCallback
deriving DecidableEq, Repr

/-- The struct spis_trx of spi_slave.c. The receive buffer is the fixed
32-byte array; the transmit pointer and remaining count are modelled by the
list of bytes not yet loaded. The crc field is the uint16_t rolling CRC. -/
structure Trx where
  rx_type : Nat
  rx_size : Nat
  rx_buf : List Nat
  crc : Nat
  rx_received : Nat
  tx_buf : List Nat
  tx_remaining : Nat
  error_code_remaining : Nat
  status : Status
deriving DecidableEq, Repr

/-- The transfer state spis_init establishes (callback registered, transfer
parked in the ready state). -/
def spis_reset : Trx :=
  { rx_type := 0, rx_size := 0, rx_buf := List.replicate SPIS_RX_BUF_SIZE 0,
    crc := 0, rx_received := 0, tx_buf := [], tx_remaining := 0,
    error_code_remaining := 0, status := .ready }

/-- One uint16_t CRC step: the external crc16_update function (core/crc16.h
is not under src) is a parameter upd of the development; the stored result
is reduced modulo 65536 because the crc field is a uint16_t. -/
def crcStep (upd : Nat → Nat → Nat) (c b : Nat) : Nat :=
  upd c b % 65536

/-- The CRC of a byte sequence: crc16_init (the external initial value,
parameter ini) followed by one crcStep per byte. -/
def crcOf (ini : Nat) (upd : Nat → Nat → Nat) (bs : List Nat) : Nat :=
  bs.foldl (crcStep upd) (ini % 65536)

/-- Embedding of end_transfer in spi_slave.c: load the response code into
the data register, remember it in error_code_remaining, and park the state
machine until the master releases slave select. The second component is the
byte loaded into the data register. -/
def end_transfer (s : Trx) (response : Nat) : Trx × Nat :=
  ({ s with error_code_remaining := response,
            status := .waitingForTransferToEnd }, response)

/-- The shared footer-high branch of the transfer-complete interrupt
(spi_slave.c lines 243-252), reached from the receiving-payload case by
fall-through and from the receiving-footer0 case directly. -/
def rxFooter0Step (s : Trx) (data : Nat) : Trx × Nat × List Nat :=
  if s.crc / 256 ≠ data then
    let p := end_transfer s SPI_TYPE_ERR_CRC_FAILURE
    (p.1, p.2, [])
  else
    ({ s with rx_received := s.rx_received + 1, status := .receivingFooter1 },
      SPI_TYPE_PREPARING_RESPONSE, [])

/-- Embedding of the SPI transfer-complete interrupt of spi_slave.c (lines
208-307), parameterised by the external CRC initial value and update
function. The argument data is the byte just received; the result carries
the new transfer state, the byte loaded into the data register for the next
exchange, and the list of events posted to the callback process. -/
def spi_tc_isr (ini : Nat) (upd : Nat → Nat → Nat) (s : Trx) (data : Nat) :
    Trx × Nat × List Nat :=
  match s.status with
  | .ready =>
    ({ s with rx_type := data, rx_received := 0,
              crc := crcStep upd (ini % 65536) data,
              status := .receivingSize },
      SPI_TYPE_PREPARING_RESPONSE, [])
  | .receivingSize =>
    if data > SPIS_RX_BUF_SIZE then
      let p := end_transfer { s with rx_size := data } SPI_TYPE_ERR_MESSAGE_TOO_LARGE
      (p.1, p.2, [])
    else
      ({ s with rx_size := data, crc := crcStep upd s.crc data,
                status := .receivingPayload },
        SPI_TYPE_PREPARING_RESPONSE, [])
  | .receivingPayload =>
    if s.rx_received < s.rx_size then
      ({ s with rx_buf := s.rx_buf.set s.rx_received data,
                rx_received := s.rx_received + 1,
                crc := crcStep upd s.crc data },
        SPI_TYPE_PREPARING_RESPONSE, [])
    else
      rxFooter0Step s data
  | .receivingFooter0 =>
    rxFooter0Step s data
  | .receivingFooter1 =>
    if s.crc % 256 ≠ data then
      let p := end_transfer s SPI_TYPE_ERR_CRC_FAILURE
      (p.1, p.2, [])
    else
      ({ s with rx_received := s.rx_received + 1, status := .waitingForCallback },
        SPI_TYPE_PREPARING_RESPONSE, [SPIS_MESSAGE_RECEIVED])
  | .waitingForCallback =>
    (s, SPI_TYPE_PREPARING_RESPONSE, [])
  | .sendResponseSize =>
    ({ s with crc := crcStep upd s.crc s.tx_remaining,
              status := if s.tx_remaining > 0 then .sendResponsePayload
                        else .sendFooter0 },
      s.tx_remaining, [])
  | .sendResponsePayload =>
    ({ s with tx_buf := s.tx_buf.tail, tx_remaining := s.tx_remaining - 1,
              status := if s.tx_remaining - 1 = 0 then .sendFooter0
                        else .sendResponsePayload },
      s.tx_buf.headD 0, [])
  | .sendFooter0 =>
    ({ s with status := .sendFooter1 }, s.crc / 256 % 256, [])
  | .sendFooter1 =>
    ({ s with status := .completed }, s.crc % 256, [])
  | .completed =>
    let p := end_transfer s SPI_TYPE_PREPARING_RESPONSE
    (p.1, p.2, [SPIS_RESPONSE_TRANSMITTED])
  | .waitingForTransferToEnd =>
    (s, s.error_code_remaining, [])
  | .abortedWhileWaitingForCallback =>
    (s, s.error_code_remaining, [])

/-- Feed a byte sequence to the transfer-complete interrupt, collecting all
posted events in order. -/
def runBytes (ini : Nat) (upd : Nat → Nat → Nat) : List Nat → Trx → Trx × List Nat
  | [], s => (s, [])
  | b :: bs, s =>
    let p := spi_tc_isr ini upd s b
    let q := runBytes ini upd bs p.1
    (q.1, p.2.2 ++ q.2)

/-- Write a byte sequence into consecutive buffer cells from a start
index, as the receiving-payload case does one byte at a time. -/
def writeAll : List Nat → Nat → List Nat → List Nat
  | buf, _, [] => buf
  | buf, i, b :: q => writeAll (buf.set i b) (i + 1) q

/-- The complete request frame for type T and payload P: type, size,
payload, and the two CRC footer bytes transmitted big-endian. -/
def frame (ini : Nat) (upd : Nat → Nat → Nat) (T : Nat) (P : List Nat) : List Nat :=
  T :: P.length :: P ++ [crcOf ini upd (T :: P.length :: P) / 256,
                         crcOf ini upd (T :: P.length :: P) % 256]

end Spis

namespace Spim

/-- Modelled from the spec: the reserved slave padding byte TYPE_RX_PROCESSING
(spi_common.h is not under src); the same wire value as the slave constant
SPI_TYPE_PREPARING_RESPONSE. -/
def TYPE_RX_PROCESSING : Nat := 240

/-- Modelled from the spec: MAX_RX_DELAY, the initial value of the low-nibble
poll counter (spi_master.h is not under src; the spec bounds it by 15). -/
def MAX_RX_DELAY : Nat := 15

/-- Modelled from the spec: completion event kind from events.h. -/
def SPIM_TRX_COMPLETED_SUCCESSFULLY : Nat := 50

/-- Modelled from the spec: slave-not-ready error event kind. -/
def SPIM_TRX_ERR_SLAVE_NOT_READY : Nat := 51

/-- Modelled from the spec: no-response error event kind. -/
def SPIM_TRX_ERR_NO_RESPONSE : Nat := 52

/-- Modelled from the spec: slave-reported-error event kind. -/
def SPIM_TRX_ERR_SLAVE : Nat := 53

/-- Modelled from the spec: oversized-response error event kind. -/
def SPIM_TRX_ERR_RESPONSE_TOO_LARGE : Nat := 54

/-- Modelled from the spec: response-CRC error event kind. -/
def SPIM_TRX_ERR_RESPONSE_CRC_FAILURE : Nat := 55

/-- A framed (link-layer protocol) master transfer: struct spim_trx_llp of
spi_master.c. The flag bits are modelled as Booleans, the slave-select line
driven through the ss port and mask as the Boolean ssLow, pointers as Nat
identifiers. -/
structure Trx where
  id : Nat
  txType : Nat
  txSize : Nat
  txBuf : List Nat
  rxMax : Nat
  rxType : Nat
  rxSize : Nat
  rxBuf : List Nat
  rxDelayRemaining : Nat
  queued : Bool
  inTransmission : Bool
  ssLow : Bool
  owner : Option Nat
deriving DecidableEq, Repr

/-- Placeholder transfer returned when the queue-head pointer is followed
although the queue is empty; any state that reads it through a head access
other than end_transfer is only reachable after the missing-goto slip, and
the end_transfer path records the null dereference in the crashed flag. -/
def noTrx : Trx :=
  { id := 0, txType := 0, txSize := 0, txBuf := [], rxMax := 0, rxType := 0,
    rxSize := 0, rxBuf := [], rxDelayRemaining := 0, queued := false,
    inTransmission := false, ssLow := false, owner := none }

/-- Resumption points of the spim_trx_process protothread, one per
PROCESS_WAIT in the framed branch of spi_master.c: idle is the wait for a
nonempty queue (lines 283-285); w1 the wait before sending the size byte
(line 304); w2 k the wait at the top of the payload loop with tx_counter = k
(line 311); w3 the wait before the first CRC footer byte (line 323), whose
not-ready branch lacks the goto start of every other error branch; w4 the
wait before the second footer byte (line 329); w5 the wait before the first
response poll (line 338); w6 the wait inside the poll loop (line 344); w7
the wait after latching the response type (line 360); w8 the wait before
reading the response size (line 370); w9 k the response payload loop with
rx_counter = k (line 385); w10 and w11 the footer waits (lines 394, 398). -/
inductive PC
  | idle
  | w1
  | w2 (k : Nat)
  | w3
  | w4
  | w5
  | w6
  | w7
  | w8
  | w9 (k : Nat)
  | w10
  | w11
deriving DecidableEq, Repr

/-- State of the master: the transfer queue, the record of terminated
transfers in termination order, the posted owner events (transfer id, event
kind), the protothread resumption point and its static locals crc and
rx_crc, and a crashed flag set when end_transfer dereferences an empty
queue head. -/
structure MState where
  queue : List Trx
  done : List Trx
  events : List (Nat × Nat)
  pc : PC
  crc : Nat
  rxCrc : Nat
  crashed : Bool
deriving DecidableEq, Repr

/-- Apply a function to the queue head, as the code does through the
trx_q_hd_llp pointer. -/
def updHead (f : Trx → Trx) (q : List Trx) : List Trx :=
  match q with
  | [] => []
  | h :: t => f h :: t

/-- The queue head as dereferenced by the process body. -/
def qhead (s : MState) : Trx :=
  s.queue.headD noTrx

/-- Embedding of end_transfer in spi_master.c (lines 246-262): post the
event to the owner when one is registered, raise slave select, clear the
in-transmission and queued flags, and shift the queue. When the queue is
empty the C code dereferences a null pointer; the model records this in the
crashed flag. -/
def end_transferM (s : MState) (ev : Nat) : MState :=
  match s.queue with
  | [] => { s with crashed := true }
  | h :: t =>
    { s with
      events := s.events ++ (if h.owner.isSome then [(h.id, ev)] else []),
      done := s.done ++ [{ h with inTransmission := false, queued := false,
                                  ssLow := false }],
      queue := t }

/-- Embedding of spim_trx_queue: reject an already queued transfer,
otherwise append to the queue tail and set the queued flag. -/
def spim_trx_queue (s : MState) (t : Trx) : MState × Bool :=
  if t.queued then (s, false)
  else ({ s with queue := s.queue ++ [{ t with queued := true }] }, true)

/-- One resumption of the framed branch of spim_trx_process, with r the byte
read_response_byte returns at this resumption (ignored at resumption points
that do not read). Each case is the straight-line code between two
PROCESS_WAIT points of spi_master.c; the w3 case reproduces the source
faithfully in that its not-ready branch performs end_transfer and then
falls through to the footer transmission instead of restarting. -/
def mstep (ini : Nat) (upd : Nat → Nat → Nat) (s : MState) (r : Nat) : MState :=
  if s.crashed then s else
  match s.pc with
  | .idle =>
    match s.queue with
    | [] => s
    | h :: t =>
      { s with queue := { h with inTransmission := true, ssLow := true } :: t,
               crc := Spis.crcStep upd
                        (Spis.crcStep upd (ini % 65536) h.txType) h.txSize,
               pc := .w1 }
  | .w1 =>
    { s with pc := if 0 < (qhead s).txSize then .w2 0 else .w3 }
  | .w2 k =>
    if r ≠ TYPE_RX_PROCESSING then
      { end_transferM s SPIM_TRX_ERR_SLAVE_NOT_READY with pc := .idle }
    else
      { s with crc := Spis.crcStep upd s.crc ((qhead s).txBuf.getD k 0),
               pc := if k + 1 < (qhead s).txSize then .w2 (k + 1) else .w3 }
  | .w3 =>
    if r ≠ TYPE_RX_PROCESSING then
      { end_transferM s SPIM_TRX_ERR_SLAVE_NOT_READY with pc := .w4 }
    else
      { s with pc := .w4 }
  | .w4 =>
    if r ≠ TYPE_RX_PROCESSING then
      { end_transferM s SPIM_TRX_ERR_SLAVE_NOT_READY with pc := .idle }
    else
      { s with pc := .w5 }
  | .w5 =>
    if (qhead s).rxDelayRemaining > 0 ∧ r = TYPE_RX_PROCESSING then
      { s with pc := .w6 }
    else if r = TYPE_RX_PROCESSING then
      { end_transferM s SPIM_TRX_ERR_NO_RESPONSE with pc := .idle }
    else
      { s with queue := updHead (fun h => { h with rxType := r }) s.queue,
               crc := ini % 65536, pc := .w7 }
  | .w6 =>
    let q1 := updHead (fun h => { h with rxDelayRemaining := h.rxDelayRemaining - 1 }) s.queue
    let s1 := { s with queue := q1 }
    if (qhead s1).rxDelayRemaining > 0 ∧ r = TYPE_RX_PROCESSING then
      { s1 with pc := .w6 }
    else if r = TYPE_RX_PROCESSING then
      { end_transferM s1 SPIM_TRX_ERR_NO_RESPONSE with pc := .idle }
    else
      { s1 with queue := updHead (fun h => { h with rxType := r }) s1.queue,
                crc := ini % 65536, pc := .w7 }
  | .w7 =>
    if (qhead s).rxType > TYPE_RX_PROCESSING then
      { end_transferM s SPIM_TRX_ERR_SLAVE with pc := .idle }
    else
      { s with crc := Spis.crcStep upd s.crc (qhead s).rxType, pc := .w8 }
  | .w8 =>
    if r > (qhead s).rxMax then
      { end_transferM s SPIM_TRX_ERR_RESPONSE_TOO_LARGE with pc := .idle }
    else
      { s with queue := updHead (fun h => { h with rxSize := r }) s.queue,
               crc := Spis.crcStep upd s.crc r,
               pc := if 0 < r then .w9 0 else .w10 }
  | .w9 k =>
    { s with queue := updHead (fun h => { h with rxBuf := h.rxBuf.set k r }) s.queue,
             crc := Spis.crcStep upd s.crc r,
             pc := if k + 1 < (qhead s).rxSize then .w9 (k + 1) else .w10 }
  | .w10 =>
    { s with rxCrc := r * 256 % 65536, pc := .w11 }
  | .w11 =>
    let s1 := { s with rxCrc := s.rxCrc ||| r }
    if s1.crc ≠ s1.rxCrc then
      { end_transferM s1 SPIM_TRX_ERR_RESPONSE_CRC_FAILURE with pc := .idle }
    else
      { end_transferM s1 SPIM_TRX_COMPLETED_SUCCESSFULLY with pc := .idle }

/-- Feed a sequence of resumption reads to the master process. -/
def mrun (ini : Nat) (upd : Nat → Nat → Nat) (rs : List Nat) (s : MState) : MState :=
  rs.foldl (mstep ini upd) s

/-- The two queued framed transfers of the missing-goto scenario: transfer 1
with an empty payload, transfer 2 never transmitted. -/
def demoTrx1 : Trx :=
  { id := 1, txType := 16, txSize := 0, txBuf := [], rxMax := 4, rxType := 0,
    rxSize := 0, rxBuf := [0, 0, 0, 0], rxDelayRemaining := MAX_RX_DELAY,
    queued := true, inTransmission := false, ssLow := false, owner := some 7 }

/-- Second queued transfer of the scenario. -/
def demoTrx2 : Trx :=
  { demoTrx1 with id := 2 }

/-- Initial master state of the scenario: both transfers queued, process
parked at the queue wait. -/
def demoInit : MState :=
  { queue := [demoTrx1, demoTrx2], done := [], events := [], pc := .idle,
    crc := 0, rxCrc := 0, crashed := false }

end Spim

/-! General list helpers used by several proofs. -/

theorem getD_set_ne {α : Type} (l : List α) (i j : Nat) (x d : α) (h : i ≠ j) :
    (l.set i x).getD j d = l.getD j d := by
  induction l generalizing i j with
  | nil => simp
  | cons a t ih =>
    cases i with
    | zero =>
      cases j with
      | zero => exact absurd rfl h
      | succ j => simp [List.getD_cons_succ]
    | succ i =>
      cases j with
      | zero => simp [List.getD_cons_zero]
      | succ j =>
        show (a :: t.set i x).getD (j + 1) d = _
        simp only [List.getD_cons_succ]
        exact ih i j (fun hij => h (by rw [hij]))

theorem getD_set_self {α : Type} (l : List α) (i : Nat) (x d : α) (h : i < l.length) :
    (l.set i x).getD i d = x := by
  induction l generalizing i with
  | nil => simp at h
  | cons a t ih =>
    cases i with
    | zero => simp [List.getD_cons_zero]
    | succ i =>
      show (a :: t.set i x).getD (i + 1) d = x
      simp only [List.getD_cons_succ]
      exact ih i (by simpa using h)

namespace Proc

theorem absQ_length (s : PState) : (absQ s).length = s.count := by
  simp [absQ]

theorem PInv_init : PInv process_init := by
  constructor
  · simp [process_init, QSIZE]
  · constructor <;> simp [process_init, QSIZE]

theorem absQ_init : absQ process_init = [] := by
  simp [absQ, process_init]

theorem post_full (s : PState) (e : Event) (h : s.count = QSIZE) :
    process_post_event s e = (s, .queueFull) := by
  simp [process_post_event, h]

theorem post_ok_abs (s : PState) (e : Event) (hI : PInv s) (h : s.count ≠ QSIZE) :
    PInv (process_post_event s e).1 ∧
      absQ (process_post_event s e).1 = absQ s ++ [e] ∧
      (process_post_event s e).2 = .ok := by
  obtain ⟨hlen, hfirst, hcount⟩ := hI
  have hlt : s.count < QSIZE := lt_of_le_of_ne hcount h
  refine ⟨⟨?_, ?_, ?_⟩, ?_, ?_⟩
  · simp [process_post_event, h, hlen]
  · simp [process_post_event, h, hfirst]
  · simp only [process_post_event, h, if_false]
    exact hlt
  · simp only [process_post_event, h, if_false, absQ, List.range_succ, List.map_append,
      List.map_cons, List.map_nil]
    congr 1
    · apply List.map_congr_left
      intro k hk
      have hk2 : k < s.count := List.mem_range.mp hk
      apply getD_set_ne
      intro hmod
      have h16 : (0:Nat) < QSIZE := by simp [QSIZE]
      have h1 : (s.first + k) % QSIZE < QSIZE := Nat.mod_lt _ h16
      have h2 : (s.first + s.count) % QSIZE < QSIZE := Nat.mod_lt _ h16
      simp only [QSIZE] at hmod hlt hk2 ⊢
      omega
    · congr 1
      apply getD_set_self
      rw [hlen]
      exact Nat.mod_lt _ (by simp [QSIZE])
  · simp [process_post_event, h]

theorem exec_empty (s : PState) (h : s.count = 0) :
    process_execute s = (s, none) := by
  simp [process_execute, h]

theorem exec_ne_abs (s : PState) (hI : PInv s) (h : s.count ≠ 0) :
    PInv (process_execute s).1 ∧
      absQ (process_execute s).1 = (absQ s).tail ∧
      (process_execute s).2 = (absQ s).head? := by
  obtain ⟨hlen, hfirst, hcount⟩ := hI
  obtain ⟨c, hc⟩ : ∃ c, s.count = c + 1 := ⟨s.count - 1, by omega⟩
  refine ⟨⟨?_, ?_, ?_⟩, ?_, ?_⟩
  · simp [process_execute, h, hlen]
  · simp only [process_execute, h, if_false]
    exact Nat.mod_lt _ (by simp [QSIZE])
  · simp only [process_execute, h, if_false]
    omega
  · simp only [process_execute, h, if_false, absQ, Nat.add_sub_cancel]
    conv_rhs => rw [hc, List.range_succ_eq_map]
    rw [hc]
    simp only [List.map_cons, List.map_map, List.tail_cons, Nat.add_sub_cancel]
    apply List.map_congr_left
    intro k hk
    simp only [Function.comp]
    congr 1
    have he : s.first + Nat.succ k = s.first + 1 + k := by omega
    rw [he]
    simp only [QSIZE]
    omega
  · simp only [process_execute, h, if_false, absQ]
    rw [hc, List.range_succ_eq_map]
    simp only [List.map_cons, List.head?_cons, Option.some.injEq]
    rw [Nat.add_zero, Nat.mod_eq_of_lt hfirst]

/-- One step of the ring refines one step of the FIFO reference model. -/
theorem pstep_sim (p : PState × List Event) (q : List Event × List Event) (op : POp)
    (hI : PInv p.1) (hq : absQ p.1 = q.1) (hd : p.2 = q.2) :
    PInv (pstep p op).1 ∧ absQ (pstep p op).1 = (specStep q op).1 ∧
      (pstep p op).2 = (specStep q op).2 := by
  obtain ⟨s, del⟩ := p
  obtain ⟨pend, del'⟩ := q
  simp only at hq hd
  cases op with
  | post e =>
    by_cases hfull : s.count = QSIZE
    · have hlenp : pend.length = QSIZE := by
        rw [← hq, absQ_length, hfull]
      simp only [pstep, specStep, post_full s e hfull, hlenp, if_true]
      exact ⟨hI, hq, hd⟩
    · obtain ⟨hI2, habs, _⟩ := post_ok_abs s e hI hfull
      have hlenp : pend.length ≠ QSIZE := by
        rw [← hq, absQ_length]
        exact hfull
      simp only [pstep, specStep, hlenp, if_false]
      exact ⟨hI2, by rw [habs, hq], hd⟩
  | exec =>
    by_cases hz : s.count = 0
    · have hpend : pend = [] := by
        have : pend.length = 0 := by rw [← hq, absQ_length, hz]
        exact List.eq_nil_of_length_eq_zero this
      simp only [pstep, exec_empty s hz, specStep, hpend]
      exact ⟨hI, by rw [hq, hpend], hd⟩
    · obtain ⟨hI2, habs, hev⟩ := exec_ne_abs s hI hz
      have hpend : ∃ e rest, pend = e :: rest := by
        rcases pend with _ | ⟨e, rest⟩
        · exfalso
          have : (absQ s).length = 0 := by rw [hq]; rfl
          rw [absQ_length] at this
          exact hz this
        · exact ⟨e, rest, rfl⟩
      obtain ⟨e, rest, hpe⟩ := hpend
      have hhead : (process_execute s).2 = some e := by
        rw [hev, hq, hpe]
        rfl
      obtain ⟨s1, hs1⟩ : ∃ s1, process_execute s = (s1, some e) :=
        ⟨(process_execute s).1, by rw [← hhead]⟩
      rw [hs1] at hI2 habs
      simp only [pstep, specStep, hpe, hs1]
      refine ⟨hI2, ?_, ?_⟩
      · rw [habs, hq, hpe]
        rfl
      · simp [hd]

/-- The ring, run over any interaction sequence, refines the FIFO model. -/
theorem runP_sim (ops : List POp) :
    PInv (runP ops).1 ∧ absQ (runP ops).1 = (specRun ops).1 ∧
      (runP ops).2 = (specRun ops).2 := by
  suffices h : ∀ (p : PState × List Event) (q : List Event × List Event),
      PInv p.1 → absQ p.1 = q.1 → p.2 = q.2 →
      PInv (ops.foldl pstep p).1 ∧
        absQ (ops.foldl pstep p).1 = (ops.foldl specStep q).1 ∧
        (ops.foldl pstep p).2 = (ops.foldl specStep q).2 by
    exact h (process_init, []) ([], []) PInv_init absQ_init rfl
  induction ops with
  | nil => exact fun p q hI hq hd => ⟨hI, hq, hd⟩
  | cons op rest ih =>
    intro p q hI hq hd
    obtain ⟨hI2, hq2, hd2⟩ := pstep_sim p q op hI hq hd
    simp only [List.foldl_cons]
    exact ih _ _ hI2 hq2 hd2

/-- C4: over every post/execute sequence the ring count never exceeds
PROCESS_CONF_EVENT_QUEUE_SIZE; the ring content and the delivered events
coincide with the bounded FIFO reference model (so delivery is FIFO and a
rejected post onto a full ring drops and overwrites nothing); a post onto a
full ring returns QUEUE_FULL leaving the state unchanged, and a post right
after one event has been consumed by process_execute succeeds. -/
theorem event_ring_bounded_fifo (ops : List POp) :
    (runP ops).1.count ≤ QSIZE ∧
    absQ (runP ops).1 = (specRun ops).1 ∧
    (runP ops).2 = (specRun ops).2 ∧
    (∀ e, (runP ops).1.count = QSIZE →
      process_post_event (runP ops).1 e = ((runP ops).1, .queueFull)) ∧
    (∀ e, (runP ops).1.count = QSIZE →
      (process_post_event (process_execute (runP ops).1).1 e).2 = .ok) := by
  obtain ⟨⟨hlen, hfirst, hcount⟩, habs, hdel⟩ := runP_sim ops
  refine ⟨hcount, habs, hdel, ?_, ?_⟩
  · intro e h
    simp [process_post_event, h]
  · intro e h
    have hne : (runP ops).1.count ≠ 0 := by
      rw [h]
      simp [QSIZE]
    simp only [process_execute, hne, if_false]
    have : (runP ops).1.count - 1 ≠ QSIZE := by
      simp only [QSIZE] at h ⊢
      omega
    simp [process_post_event, this]

/-- Witness for C4 at a concrete sequence of sixteen posts: the ring is
full, the next post is rejected with the state unchanged, and a post after
one execute succeeds. -/
theorem event_ring_bounded_fifo_witness :
    (runP (List.replicate 16 (POp.post ⟨1, 2, 3⟩))).1.count = QSIZE ∧
    process_post_event (runP (List.replicate 16 (POp.post ⟨1, 2, 3⟩))).1 ⟨4, 5, 6⟩ =
      ((runP (List.replicate 16 (POp.post ⟨1, 2, 3⟩))).1, .queueFull) ∧
    (process_post_event
      (process_execute (runP (List.replicate 16 (POp.post ⟨1, 2, 3⟩))).1).1 ⟨4, 5, 6⟩).2 =
      .ok :=
  ⟨by decide,
   (event_ring_bounded_fifo (List.replicate 16 (POp.post ⟨1, 2, 3⟩))).2.2.2.1
     ⟨4, 5, 6⟩ (by decide),
   (event_ring_bounded_fifo (List.replicate 16 (POp.post ⟨1, 2, 3⟩))).2.2.2.2
     ⟨4, 5, 6⟩ (by decide)⟩

/-- C9: a post onto a full ring returns QUEUE_FULL and leaves the whole
ring state, count, head index and every stored triple, unchanged (the
returned state is the argument itself). -/
theorem process_post_event_full_frame (s : PState) (e : Event) (h : s.count = QSIZE) :
    process_post_event s e = (s, .queueFull) := by
  simp [process_post_event, h]

/-- Witness for C9 at a concrete full ring. -/
theorem process_post_event_full_frame_witness :
    (⟨List.replicate 16 ⟨0, 0, 0⟩, 16, 0⟩ : PState).count = QSIZE ∧
    process_post_event ⟨List.replicate 16 ⟨0, 0, 0⟩, 16, 0⟩ ⟨7, 8, 9⟩ =
      (⟨List.replicate 16 ⟨0, 0, 0⟩, 16, 0⟩, .queueFull) :=
  ⟨by decide, process_post_event_full_frame _ ⟨7, 8, 9⟩ (by decide)⟩

/-- C8 (code bug): starting a first process on the empty list links it,
posts one INIT event and returns OK, but once any process is linked,
process_start on a different pointer never returns: the scan loop of
process_list_contains does not advance its cursor, so no amount of loop
iterations (fuel) reaches an answer, where the claim requires OK after
linking. -/
theorem process_start_hangs :
    (∀ fuel es, process_start (fuel + 1) [] es 1 =
      some ([1], (process_post_event es ⟨1, PROCESS_EVENT_INIT, 0⟩).1, .ok)) ∧
    (∀ fuel es, process_start fuel [1] es 2 = none) := by
  constructor
  · intro fuel es
    rfl
  · intro fuel es
    have hc : ∀ f, process_list_contains f [1] 2 = none := by
      intro f
      induction f with
      | zero => rfl
      | succ f ih => simpa [process_list_contains] using ih
    simp [process_start, hc]

end Proc

namespace Sched

/-- C10: sched_exec on an empty ready queue reports SCHED_IDLE and returns
the state itself, so the free list, the waiting list, the ready queue and
next_interrupt_tick are all untouched. -/
theorem sched_exec_idle_frame (s : SState) (h : s.ready = []) :
    sched_exec s = (s, .idle) := by
  simp [sched_exec, h]

/-- Witness for C10 at the freshly initialised scheduler. -/
theorem sched_exec_idle_frame_witness :
    sched_init.ready = [] ∧ sched_exec sched_init = (sched_init, .idle) :=
  ⟨rfl, sched_exec_idle_frame sched_init rfl⟩

/-- Ticks that never reach the compare register only advance the counter
and the ghost elapsed time. -/
theorem foldl_adv_run (k : Nat) : ∀ s : SState, s.cntr < U8 →
    (∀ j, j < k → (s.cntr + j + 1) % U8 ≠ s.compare) →
    List.foldl sstep s (List.replicate k SOp.adv) =
      { s with cntr := (s.cntr + k) % U8, gtime := s.gtime + k } := by
  induction k with
  | zero =>
    intro s hc _
    simp [Nat.mod_eq_of_lt hc]
  | succ k ih =>
    intro s hc h
    rw [List.replicate_succ, List.foldl_cons]
    have hstep : sstep s SOp.adv =
        { s with cntr := (s.cntr + 1) % U8, gtime := s.gtime + 1 } := by
      have h0 := h 0 (Nat.succ_pos k)
      simp only [sstep, advance1]
      rw [if_neg]
      exact h0
    rw [hstep]
    rw [ih _ (Nat.mod_lt _ (by simp [U8])) ?hcond]
    case hcond =>
      intro j hj
      show ((s.cntr + 1) % U8 + j + 1) % U8 ≠ s.compare
      have hh := h (j + 1) (by omega)
      have he : (s.cntr + 1) % U8 + j + 1 = (s.cntr + 1) % U8 + (j + 1) := by omega
      rw [he, Nat.mod_add_mod]
      have he2 : s.cntr + 1 + (j + 1) = s.cntr + (j + 1) + 1 := by omega
      rw [he2]
      exact hh
    simp only [U8]
    congr 1
    · omega
    · omega

/-- C1 (code bug): the concrete step sequence c1ops makes the scheduler
execute task 3 (deadline tick 666) before task 1 (deadline tick 300,
scheduled first), and the trace goes through the mis-promoted reprogram
comparison (the ok flag ends false): at tick 255 the re-armed compare
register (44) is numerically below the counter (255), so the comparison of
scheduler.c line 153 sees a negative 16-bit int, converts it to 65325, and
wrongly reprograms the interrupt for the new delta-500 task, after which
the interrupt handler believes the current tick is 755 and task 3 is
sorted in front of the stuck task 1. -/
theorem sched_deadline_order_violation :
    (srun c1ops).log = [⟨666, 666, 3⟩, ⟨300, 300, 1⟩] ∧ (srun c1ops).ok = false := by
  have hA : List.foldl sstep sched_init [SOp.sch 300 1] =
      (⟨7, [⟨300, 300, 1⟩], [], 255, 0, 255, 0, 255, [], true⟩ : SState) := by
    decide
  have hB : List.foldl sstep (⟨7, [⟨300, 300, 1⟩], [], 255, 0, 255, 0, 255, [], true⟩ : SState)
      (List.replicate 255 SOp.adv) =
      (⟨7, [⟨300, 300, 1⟩], [], 300, 255, 44, 255, 300, [], true⟩ : SState) := by
    have hsp : List.replicate 255 SOp.adv =
        List.replicate 254 SOp.adv ++ List.replicate 1 SOp.adv := by
      rw [← List.replicate_add]
    rw [hsp, List.foldl_append]
    rw [foldl_adv_run 254 _ (by decide) ?c1]
    case c1 =>
      intro j hj
      show (0 + j + 1) % 256 ≠ 255
      omega
    decide
  have hC : List.foldl sstep (⟨7, [⟨300, 300, 1⟩], [], 300, 255, 44, 255, 300, [], true⟩ : SState)
      [SOp.sch 500 2] =
      (⟨6, [⟨300, 300, 1⟩, ⟨755, 755, 2⟩], [], 755, 255, 243, 255, 755, [], false⟩ : SState) := by
    decide
  have hD : List.foldl sstep
      (⟨6, [⟨300, 300, 1⟩, ⟨755, 755, 2⟩], [], 755, 255, 243, 255, 755, [], false⟩ : SState)
      (List.replicate 145 SOp.adv) =
      (⟨6, [⟨300, 300, 1⟩, ⟨755, 755, 2⟩], [], 755, 144, 243, 400, 755, [], false⟩ : SState) := by
    rw [foldl_adv_run 145 _ (by decide) ?c2]
    case c2 =>
      intro j hj
      show (255 + j + 1) % 256 ≠ 243
      omega
    decide
  have hE : List.foldl sstep
      (⟨6, [⟨300, 300, 1⟩, ⟨755, 755, 2⟩], [], 755, 144, 243, 400, 755, [], false⟩ : SState)
      [SOp.sch 10 3] =
      (⟨5, [⟨666, 666, 3⟩, ⟨300, 300, 1⟩, ⟨755, 755, 2⟩], [], 666, 144, 154, 400, 666, [],
        false⟩ : SState) := by
    decide
  have hF : List.foldl sstep
      (⟨5, [⟨666, 666, 3⟩, ⟨300, 300, 1⟩, ⟨755, 755, 2⟩], [], 666, 144, 154, 400, 666, [],
        false⟩ : SState)
      (List.replicate 10 SOp.adv) =
      (⟨5, [⟨755, 755, 2⟩], [⟨666, 666, 3⟩, ⟨300, 300, 1⟩], 755, 154, 243, 410, 755, [],
        false⟩ : SState) := by
    have hsp : List.replicate 10 SOp.adv =
        List.replicate 9 SOp.adv ++ List.replicate 1 SOp.adv := by
      rw [← List.replicate_add]
    rw [hsp, List.foldl_append]
    rw [foldl_adv_run 9 _ (by decide) ?c3]
    case c3 =>
      intro j hj
      show (144 + j + 1) % 256 ≠ 154
      omega
    decide
  have hG : List.foldl sstep
      (⟨5, [⟨755, 755, 2⟩], [⟨666, 666, 3⟩, ⟨300, 300, 1⟩], 755, 154, 243, 410, 755, [],
        false⟩ : SState)
      [SOp.exec, SOp.exec] =
      (⟨7, [⟨755, 755, 2⟩], [], 755, 154, 243, 410, 755,
        [⟨666, 666, 3⟩, ⟨300, 300, 1⟩], false⟩ : SState) := by
    decide
  have hrun : srun c1ops =
      (⟨7, [⟨755, 755, 2⟩], [], 755, 154, 243, 410, 755,
        [⟨666, 666, 3⟩, ⟨300, 300, 1⟩], false⟩ : SState) := by
    show List.foldl sstep sched_init c1ops = _
    unfold c1ops
    rw [List.foldl_append, List.foldl_append, List.foldl_append, List.foldl_append,
      List.foldl_append, List.foldl_append]
    rw [hA, hB, hC, hD, hE, hF, hG]
  rw [hrun]
  exact ⟨rfl, rfl⟩

/-- Counterexample to C7 as stated: after the benign call sched_schedule
(300, task 1) from the initialised scheduler (no mis-promoted comparison is
involved, the ok flag is still true), the waiting head carries deadline 300
while next_interrupt_tick is still the parked 255, so the claimed equality
between the head deadline and next_interrupt_tick fails. -/
theorem waiting_head_ne_nit :
    (srun [SOp.sch 300 1]).ok = true ∧
      ¬ waitingSortedHeadEqNit (srun [SOp.sch 300 1]) := by
  decide

/-- Every element of the insertion result is the new node or an old one. -/
theorem insertW_mem (cur ticks : Nat) (n : TaskNode) :
    ∀ (l : List TaskNode) (x : TaskNode), x ∈ insertW cur ticks n l → x = n ∨ x ∈ l := by
  intro l
  induction l with
  | nil =>
    intro x hx
    simp [insertW] at hx
    exact Or.inl hx
  | cons m rest ih =>
    intro x hx
    simp only [insertW] at hx
    by_cases hc : (m.tick + U16 - cur % U16) % U16 ≤ ticks
    · rw [if_pos hc] at hx
      rcases List.mem_cons.mp hx with hx1 | hx2
      · exact Or.inr (by simp [hx1])
      · rcases ih x hx2 with h1 | h2
        · exact Or.inl h1
        · exact Or.inr (List.mem_cons_of_mem m h2)
    · rw [if_neg hc] at hx
      rcases List.mem_cons.mp hx with hx1 | hx2
      · exact Or.inl hx1
      · exact Or.inr hx2

/-- The insertion loop preserves sortedness by ghost deadline when the
uint16_t offset comparison agrees with the ghost comparison against the new
node. Ties place the new node after the old ones. -/
theorem insertW_sorted (cur ticks : Nat) (n : TaskNode) :
    ∀ l : List TaskNode,
      (∀ m ∈ l, ((m.tick + U16 - cur % U16) % U16 ≤ ticks ↔ m.gtick ≤ n.gtick)) →
      l.Pairwise (fun a b => a.gtick ≤ b.gtick) →
      (insertW cur ticks n l).Pairwise (fun a b => a.gtick ≤ b.gtick) := by
  intro l
  induction l with
  | nil =>
    intro _ _
    simp [insertW]
  | cons m rest ih =>
    intro hcond hs
    rw [List.pairwise_cons] at hs
    obtain ⟨hm, hrest⟩ := hs
    simp only [insertW]
    by_cases hc : (m.tick + U16 - cur % U16) % U16 ≤ ticks
    · rw [if_pos hc]
      rw [List.pairwise_cons]
      constructor
      · intro x hx
        rcases insertW_mem cur ticks n rest x hx with h1 | h2
        · rw [h1]
          exact (hcond m (by simp)).mp hc
        · exact hm x h2
      · exact ih (fun q hq => hcond q (List.mem_cons_of_mem m hq)) hrest
    · rw [if_neg hc]
      rw [List.pairwise_cons]
      constructor
      · intro x hx
        have hnm : n.gtick ≤ m.gtick :=
          Nat.le_of_not_lt (fun hlt =>
            hc ((hcond m (by simp)).mpr (Nat.le_of_lt hlt)))
        rcases List.mem_cons.mp hx with hx1 | hx2
        · rw [hx1]
          exact hnm
        · exact Nat.le_trans hnm (hm x hx2)
      · rw [List.pairwise_cons]
        exact ⟨hm, hrest⟩

/-- The interrupt unlink loop splits the waiting list. -/
theorem moveDue_append (cur : Nat) :
    ∀ l : List TaskNode, (moveDue cur l).1 ++ (moveDue cur l).2 = l := by
  intro l
  induction l with
  | nil => rfl
  | cons m rest ih =>
    simp only [moveDue]
    by_cases hc : m.tick ≤ cur
    · rw [if_pos hc]
      simp only [List.cons_append]
      rw [ih]
    · rw [if_neg hc]
      rfl

/-- The head of the remaining suffix, when present, is not yet due. -/
theorem moveDue_rest_head (cur : Nat) :
    ∀ (l : List TaskNode) (h : TaskNode) (t : List TaskNode),
      (moveDue cur l).2 = h :: t → ¬ (h.tick ≤ cur) := by
  intro l
  induction l with
  | nil =>
    intro h t hht
    simp [moveDue] at hht
  | cons m rest ih =>
    intro h t hht
    simp only [moveDue] at hht
    by_cases hc : m.tick ≤ cur
    · rw [if_pos hc] at hht
      exact ih h t hht
    · rw [if_neg hc] at hht
      simp only [List.cons.injEq] at hht
      rw [← hht.1]
      exact hc

/-- A sched_exec call preserves the scheduler invariant. -/
theorem inv_exec (s : SState) (h : SchedInv s) : SchedInv (sched_exec s).1 := by
  cases hr : s.ready with
  | nil =>
    simp only [sched_exec, hr]
    exact h
  | cons n rest =>
    simp only [sched_exec, hr]
    exact h

/-- A hardware tick, with the compare-match interrupt when due, preserves
the scheduler invariant. -/
theorem inv_adv (s : SState) (h : SchedInv s) : SchedInv (advance1 s) := by
  obtain ⟨h1, h2, h3, h4, h5, h6, h7⟩ := h
  simp only [advance1]
  by_cases hm : (s.cntr + 1) % U8 = s.compare
  · -- compare match: the interrupt runs
    rw [if_pos hm]
    have hG : s.gnit = s.gtime + 1 := by
      rw [h1, h2] at hm
      simp only [U8] at hm
      omega
    simp only [tmrISR]
    rcases hp2 : (moveDue s.nit s.waiting).2 with _ | ⟨hh, tt⟩
    · -- no tasks left waiting: park the interrupt at 255
      simp only [hp2]
      refine ⟨?_, ?_, ?_, ?_, ?_, ?_, ?_⟩
      · show (s.cntr + 1) % U8 = (s.gtime + 1) % U8
        rw [h1]
        simp only [U8]
        omega
      · show ((s.cntr + 1) % U8 + 255) % U8 = (s.gnit + 255) % U8
        rw [h1, hG]
        simp only [U8]
        omega
      · show (s.nit + 255) % U16 = (s.gnit + 255) % U16
        rw [h3]
        simp only [U16]
        omega
      · show s.gtime + 1 < s.gnit + 255
        omega
      · show s.gnit + 255 ≤ s.gtime + 1 + 255
        omega
      · intro n hn
        simp at hn
      · simp
    · -- re-arm for the next waiting deadline
      have hmem : ∀ x ∈ hh :: tt, x ∈ s.waiting := by
        intro x hx
        rw [← moveDue_append s.nit s.waiting]
        rw [hp2]
        exact List.mem_append_right _ hx
      have hpair : (hh :: tt).Pairwise (fun a b => a.gtick ≤ b.gtick) := by
        have := h7
        rw [← moveDue_append s.nit s.waiting, hp2] at this
        exact (List.pairwise_append.mp this).2.1
      obtain ⟨hhm, hhge, hhwin⟩ := h6 hh (hmem hh (by simp))
      have hnotdue := moveDue_rest_head s.nit s.waiting hh tt hp2
      have hne : hh.gtick ≠ s.gnit := by
        intro he
        apply hnotdue
        rw [hhm, he, ← h3]
      have hoff : (hh.tick + U16 - s.nit % U16) % U16 = hh.gtick - s.gnit := by
        rw [hhm, h3]
        simp only [U16]
        omega
      simp only [hp2, hoff]
      have hd1 : 1 ≤ min (hh.gtick - s.gnit) 255 := by
        omega
      have hd2 : min (hh.gtick - s.gnit) 255 ≤ 255 := by
        omega
      refine ⟨?_, ?_, ?_, ?_, ?_, ?_, hpair⟩
      · show (s.cntr + 1) % U8 = (s.gtime + 1) % U8
        rw [h1]
        simp only [U8]
        omega
      · show ((s.cntr + 1) % U8 + min (hh.gtick - s.gnit) 255) % U8 =
          (s.gnit + min (hh.gtick - s.gnit) 255) % U8
        rw [h1, hG]
        simp only [U8]
        omega
      · show (s.nit + min (hh.gtick - s.gnit) 255) % U16 =
          (s.gnit + min (hh.gtick - s.gnit) 255) % U16
        rw [h3]
        simp only [U16]
        omega
      · show s.gtime + 1 < s.gnit + min (hh.gtick - s.gnit) 255
        omega
      · show s.gnit + min (hh.gtick - s.gnit) 255 ≤ s.gtime + 1 + 255
        omega
      · intro x hx
        obtain ⟨hxm, hxge, hxwin⟩ := h6 x (hmem x hx)
        refine ⟨hxm, ?_, ?_⟩
        · show s.gnit + min (hh.gtick - s.gnit) 255 ≤ x.gtick
          have hhx : hh.gtick ≤ x.gtick := by
            rcases List.mem_cons.mp hx with h | h
            · rw [h]
            · exact (List.pairwise_cons.mp hpair).1 x h
          omega
        · show x.gtick ≤ s.gtime + 1 + 65535
          omega
  · -- no compare match: only the counter and the time advance
    rw [if_neg hm]
    have hlt : s.gtime + 1 < s.gnit := by
      rw [h1, h2] at hm
      simp only [U8] at hm
      omega
    refine ⟨?_, h2, h3, hlt, ?_, ?_, h7⟩
    · show (s.cntr + 1) % U8 = (s.gtime + 1) % U8
      rw [h1]
      simp only [U8]
      omega
    · show s.gnit ≤ s.gtime + 1 + 255
      omega
    · intro n hn
      obtain ⟨hxm, hxge, hxwin⟩ := h6 n hn
      refine ⟨hxm, hxge, ?_⟩
      show n.gtick ≤ s.gtime + 1 + 65535
      omega

/-- A sched_schedule call that does not hit the mis-promoted comparison
(the ok flag of the result is still true) preserves the scheduler
invariant. -/
theorem inv_sch (s : SState) (ticks0 tid : Nat) (h : SchedInv s)
    (hok : (sched_schedule s ticks0 tid).1.ok = true) :
    SchedInv (sched_schedule s ticks0 tid).1 := by
  obtain ⟨h1, h2, h3, h4, h5, h6, h7⟩ := h
  by_cases hf : s.freeN = 0
  · simp only [sched_schedule, hf, if_pos]
    exact ⟨h1, h2, h3, h4, h5, h6, h7⟩
  · by_cases ht0 : ticks0 % U16 = 0
    · simp only [sched_schedule, if_neg hf, ht0, if_pos]
      exact ⟨h1, h2, h3, h4, h5, h6, h7⟩
    · have hticks1 : 1 ≤ ticks0 % U16 := Nat.one_le_iff_ne_zero.mpr ht0
      have hticksU : ticks0 % U16 ≤ 65535 := by
        have := Nat.mod_lt ticks0 (show 0 < U16 by simp [U16])
        simp only [U16] at this ⊢
        omega
      have htun : (s.compare + U8 - s.cntr) % U8 = s.gnit - s.gtime := by
        rw [h1, h2]
        simp only [U8]
        omega
      have hcur : (s.nit + U16 - (s.compare + U8 - s.cntr) % U8) % U16 =
          s.gtime % U16 := by
        rw [h3, htun]
        simp only [U16]
        omega
      have hgcur : s.gnit - (s.compare + U8 - s.cntr) % U8 = s.gtime := by
        rw [htun]
        omega
      -- translation of the insertion comparison to the ghost domain
      have hcond : ∀ m ∈ s.waiting,
          ((m.tick + U16 - ((s.nit + U16 - (s.compare + U8 - s.cntr) % U8) % U16) % U16) % U16
              ≤ ticks0 % U16 ↔
            m.gtick ≤ s.gtime + ticks0 % U16) := by
        intro m hm
        obtain ⟨hm1, hm2, hm3⟩ := h6 m hm
        rw [hm1, hcur]
        simp only [U16]
        simp only [U16] at hm3 hticksU
        omega
      have hsorted : ∀ nn : TaskNode, nn.gtick = s.gtime + ticks0 % U16 →
          (insertW ((s.nit + U16 - (s.compare + U8 - s.cntr) % U8) % U16) (ticks0 % U16)
              nn s.waiting).Pairwise (fun a b => a.gtick ≤ b.gtick) := by
        intro nn hnn
        apply insertW_sorted
        · intro m hm
          rw [hnn]
          exact hcond m hm
        · exact h7
      have hmemNew : ∀ nn : TaskNode, ∀ x ∈ insertW
            ((s.nit + U16 - (s.compare + U8 - s.cntr) % U8) % U16) (ticks0 % U16)
            nn s.waiting, x = nn ∨ x ∈ s.waiting :=
        fun nn => insertW_mem _ _ nn s.waiting
      simp only [sched_schedule, if_neg hf, if_neg ht0]
      by_cases hdp : ticks0 % U16 <
          (if s.cntr ≤ s.compare then s.compare - s.cntr else U16 - (s.cntr - s.compare))
      · rw [if_pos hdp]
        have hokr : (s.ok && decide ((ticks0 % U16 <
            (if s.cntr ≤ s.compare then s.compare - s.cntr
             else U16 - (s.cntr - s.compare))) ↔
            (ticks0 % U16 < (s.compare + U8 - s.cntr) % U8))) = true := by
          have := hok
          simp only [sched_schedule, if_neg hf, if_neg ht0, if_pos hdp] at this
          exact this
        have hagree2 := hokr
        rw [Bool.and_eq_true] at hagree2
        have hagree := of_decide_eq_true hagree2.2
        have hlt : ticks0 % U16 < s.gnit - s.gtime := by
          rw [← htun]
          exact hagree.mp hdp
        refine ⟨?_, ?_, ?_, ?_, ?_, ?_, ?_⟩
        ·exact h1
        · show (s.cntr + ticks0 % U16) % U8 =
            (s.gnit - (s.compare + U8 - s.cntr) % U8 + ticks0 % U16) % U8
          rw [hgcur, h1]
          simp only [U8]
          omega
        · show ((s.nit + U16 - (s.compare + U8 - s.cntr) % U8) % U16 + ticks0 % U16) % U16 =
            (s.gnit - (s.compare + U8 - s.cntr) % U8 + ticks0 % U16) % U16
          rw [hgcur, hcur]
          simp only [U16]
          omega
        · show s.gtime < s.gnit - (s.compare + U8 - s.cntr) % U8 + ticks0 % U16
          rw [hgcur]
          omega
        · show s.gnit - (s.compare + U8 - s.cntr) % U8 + ticks0 % U16 ≤ s.gtime + 255
          rw [hgcur]
          omega
        · intro x hx
          rcases hmemNew _ x hx with hxn | hxo
          · rw [hxn]
            refine ⟨?_, ?_, ?_⟩
            · show ((s.nit + U16 - (s.compare + U8 - s.cntr) % U8) % U16 + ticks0 % U16) % U16 =
                (s.gnit - (s.compare + U8 - s.cntr) % U8 + ticks0 % U16) % U16
              rw [hgcur, hcur]
              simp only [U16]
              omega
            · show s.gnit - (s.compare + U8 - s.cntr) % U8 + ticks0 % U16 ≤
                s.gnit - (s.compare + U8 - s.cntr) % U8 + ticks0 % U16
              exact Nat.le_refl _
            · show s.gnit - (s.compare + U8 - s.cntr) % U8 + ticks0 % U16 ≤ s.gtime + 65535
              rw [hgcur]
              omega
          · obtain ⟨hx1, hx2, hx3⟩ := h6 x hxo
            refine ⟨hx1, ?_, hx3⟩
            show s.gnit - (s.compare + U8 - s.cntr) % U8 + ticks0 % U16 ≤ x.gtick
            rw [hgcur]
            omega
        · exact hsorted _ (by rw [hgcur])
      · rw [if_neg hdp]
        have hokr : (s.ok && decide ((ticks0 % U16 <
            (if s.cntr ≤ s.compare then s.compare - s.cntr
             else U16 - (s.cntr - s.compare))) ↔
            (ticks0 % U16 < (s.compare + U8 - s.cntr) % U8))) = true := by
          have := hok
          simp only [sched_schedule, if_neg hf, if_neg ht0, if_neg hdp] at this
          exact this
        have hagree2 := hokr
        rw [Bool.and_eq_true] at hagree2
        have hagree := of_decide_eq_true hagree2.2
        have hge : s.gnit - s.gtime ≤ ticks0 % U16 := by
          have := fun hlt => hdp (hagree.mpr hlt)
          rw [htun] at this
          omega
        refine ⟨h1, h2, h3, h4, h5, ?_, ?_⟩
        · intro x hx
          rcases hmemNew _ x hx with hxn | hxo
          · rw [hxn]
            refine ⟨?_, ?_, ?_⟩
            · show ((s.nit + U16 - (s.compare + U8 - s.cntr) % U8) % U16 + ticks0 % U16) % U16 =
                (s.gnit - (s.compare + U8 - s.cntr) % U8 + ticks0 % U16) % U16
              rw [hgcur, hcur]
              simp only [U16]
              omega
            · show s.gnit ≤ s.gnit - (s.compare + U8 - s.cntr) % U8 + ticks0 % U16
              rw [hgcur]
              omega
            · show s.gnit - (s.compare + U8 - s.cntr) % U8 + ticks0 % U16 ≤ s.gtime + 65535
              rw [hgcur]
              omega
          · exact h6 x hxo
        · exact hsorted _ (by rw [hgcur])

/-- No step turns the ok flag from false back to true. -/
theorem ok_sstep (s : SState) (op : SOp) (hok : (sstep s op).ok = true) :
    s.ok = true := by
  cases op with
  | sch t i =>
    simp only [sstep, sched_schedule] at hok
    by_cases hf : s.freeN = 0
    · rw [if_pos hf] at hok
      exact hok
    · rw [if_neg hf] at hok
      by_cases ht0 : t % U16 = 0
      · rw [if_pos ht0] at hok
        exact hok
      · rw [if_neg ht0] at hok
        by_cases hdp : t % U16 <
            (if s.cntr ≤ s.compare then s.compare - s.cntr else U16 - (s.cntr - s.compare))
        · rw [if_pos hdp] at hok
          rw [Bool.and_eq_true] at hok
          exact hok.1
        · rw [if_neg hdp] at hok
          rw [Bool.and_eq_true] at hok
          exact hok.1
  | exec =>
    simp only [sstep] at hok
    cases hr : s.ready with
    | nil =>
      rw [sched_exec, hr] at hok
      exact hok
    | cons n rest =>
      rw [sched_exec, hr] at hok
      exact hok
  | adv =>
    simp only [sstep, advance1] at hok
    by_cases hm : (s.cntr + 1) % U8 = s.compare
    · rw [if_pos hm] at hok
      simp only [tmrISR] at hok
      exact hok
    · rw [if_neg hm] at hok
      exact hok

/-- The ok flag of a run bounds the ok flag of its starting state. -/
theorem ok_foldl (ops : List SOp) :
    ∀ s : SState, (List.foldl sstep s ops).ok = true → s.ok = true := by
  induction ops with
  | nil => exact fun s h => h
  | cons op rest ih =>
    intro s h
    rw [List.foldl_cons] at h
    exact ok_sstep s op (ih _ h)

/-- Any step with a true resulting ok flag preserves the invariant. -/
theorem inv_sstep (s : SState) (op : SOp) (h : SchedInv s)
    (hok : (sstep s op).ok = true) : SchedInv (sstep s op) := by
  cases op with
  | sch t i => exact inv_sch s t i h hok
  | exec => exact inv_exec s h
  | adv => exact inv_adv s h

/-- The invariant holds after every run whose ok flag survived. -/
theorem inv_run (ops : List SOp) (h : (srun ops).ok = true) : SchedInv (srun ops) := by
  suffices hgen : ∀ s : SState, SchedInv s → (List.foldl sstep s ops).ok = true →
      SchedInv (List.foldl sstep s ops) from
    hgen sched_init (by decide) h
  clear h
  induction ops with
  | nil => exact fun s hs _ => hs
  | cons op rest ih =>
    intro s hs hok
    rw [List.foldl_cons] at hok ⊢
    exact ih (sstep s op) (inv_sstep s op hs (ok_foldl rest (sstep s op) hok)) hok

/-- C7 (amended): between calls and interrupt runs, on every trace in which
no sched_schedule call has hit the mis-promoted compare-reprogram
comparison of scheduler.c line 153 (the ok flag is true), the waiting list
is ordered by deadline, every waiting deadline is consistent with its ghost
modulo 65536, and next_interrupt_tick (ghost gnit, mirrored by the stored
nit modulo 65536) never lies beyond any waiting deadline; in particular the
head deadline is at least next_interrupt_tick, though not necessarily equal
to it. -/
theorem waiting_sorted_nit_le_deadlines (ops : List SOp) (h : (srun ops).ok = true) :
    (srun ops).waiting.Pairwise (fun a b => a.gtick ≤ b.gtick) ∧
    (∀ n ∈ (srun ops).waiting, n.tick = n.gtick % U16 ∧ (srun ops).gnit ≤ n.gtick) ∧
    (srun ops).nit = (srun ops).gnit % U16 := by
  obtain ⟨_, _, h3, _, _, h6, h7⟩ := inv_run ops h
  exact ⟨h7, fun n hn => ⟨(h6 n hn).1, (h6 n hn).2.1⟩, h3⟩

/-- Witness for the amended C7 on the concrete benign trace of one
schedule call followed by ticks up to the first interrupt. -/
theorem waiting_sorted_nit_le_deadlines_witness :
    (srun [SOp.sch 300 1]).ok = true ∧
    ((srun [SOp.sch 300 1]).waiting.Pairwise (fun a b => a.gtick ≤ b.gtick) ∧
      (∀ n ∈ (srun [SOp.sch 300 1]).waiting,
        n.tick = n.gtick % U16 ∧ (srun [SOp.sch 300 1]).gnit ≤ n.gtick) ∧
      (srun [SOp.sch 300 1]).nit = (srun [SOp.sch 300 1]).gnit % U16) :=
  ⟨by decide, waiting_sorted_nit_le_deadlines [SOp.sch 300 1] (by decide)⟩

end Sched

namespace AdcI

/-- Characterisation of the sorted-insert loop of adc_enable on success: the
measurement was not yet listed, the result holds exactly the old elements
plus the new one, stays sorted, and stays duplicate-free. -/
theorem enableIns_some (chan : Nat → Nat) (m : Nat) :
    ∀ (l l2 : List Nat), l.Pairwise (fun a b => chan a ≤ chan b) →
      enableIns chan m l = some l2 →
      m ∉ l ∧ (∀ x, x ∈ l2 ↔ x = m ∨ x ∈ l) ∧
        l2.Pairwise (fun a b => chan a ≤ chan b) ∧ (l.Nodup → l2.Nodup) := by
  intro l
  induction l with
  | nil =>
    intro l2 _ h2
    simp only [enableIns, Option.some.injEq] at h2
    subst h2
    refine ⟨by simp, ?_, by simp, by simp⟩
    intro x
    simp
  | cons a rest ih =>
    intro l2 hs h2
    rw [List.pairwise_cons] at hs
    obtain ⟨ha, hrest⟩ := hs
    simp only [enableIns] at h2
    by_cases hle : chan a ≤ chan m
    · rw [if_pos hle] at h2
      by_cases ham : a = m
      · rw [if_pos ham] at h2
        cases h2
      · rw [if_neg ham] at h2
        rcases hr2 : enableIns chan m rest with _ | r2
        · rw [hr2] at h2
          cases h2
        · rw [hr2] at h2
          simp only [Option.map_some', Option.some.injEq] at h2
          obtain ⟨hm1, hm2, hm3, hm4⟩ := ih r2 hrest hr2
          subst h2
          refine ⟨?_, ?_, ?_, ?_⟩
          · intro hmem
            rcases List.mem_cons.mp hmem with h | h
            · exact ham h.symm
            · exact hm1 h
          · intro x
            rw [List.mem_cons, hm2 x]
            constructor
            · rintro (h | h | h)
              · exact Or.inr (by simp [h])
              · exact Or.inl h
              · exact Or.inr (List.mem_cons_of_mem a h)
            · rintro (h | h)
              · exact Or.inr (Or.inl h)
              · rcases List.mem_cons.mp h with h | h
                · exact Or.inl h
                · exact Or.inr (Or.inr h)
          · rw [List.pairwise_cons]
            refine ⟨?_, hm3⟩
            intro x hx
            rcases (hm2 x).mp hx with h | h
            · rw [h]
              exact hle
            · exact ha x h
          · intro hnd
            rw [List.nodup_cons] at hnd ⊢
            refine ⟨?_, hm4 hnd.2⟩
            intro hax
            rcases (hm2 a).mp hax with h | h
            · exact ham h
            · exact hnd.1 h
    · rw [if_neg hle] at h2
      simp only [Option.some.injEq] at h2
      subst h2
      have hlt : chan m < chan a := Nat.lt_of_not_le hle
      have hnm : m ∉ a :: rest := by
        intro hmem
        rcases List.mem_cons.mp hmem with h | h
        · rw [h] at hlt
          exact Nat.lt_irrefl _ hlt
        · have := ha m h
          omega
      refine ⟨hnm, ?_, ?_, ?_⟩
      · intro x
        rw [List.mem_cons]
      · rw [List.pairwise_cons]
        refine ⟨?_, by rw [List.pairwise_cons]; exact ⟨ha, hrest⟩⟩
        intro x hx
        rcases List.mem_cons.mp hx with h | h
        · rw [h]
          omega
        · have := ha x h
          omega
      · intro hnd
        rw [List.nodup_cons]
        exact ⟨hnm, hnd⟩

/-- Characterisation of the unlink scan of adc_disable on success: the list
splits around the first occurrence of the measurement. -/
theorem disableSplit_some (m : Nat) :
    ∀ (l p q : List Nat), disableSplit m l = some (p, q) →
      l = p ++ m :: q ∧ m ∉ p := by
  intro l
  induction l with
  | nil =>
    intro p q h
    simp [disableSplit] at h
  | cons a rest ih =>
    intro p q h
    simp only [disableSplit] at h
    by_cases ham : a = m
    · rw [if_pos ham] at h
      simp only [Option.some.injEq, Prod.mk.injEq] at h
      rw [← h.1, ← h.2, ham]
      exact ⟨rfl, by simp⟩
    · rw [if_neg ham] at h
      rcases hr : disableSplit m rest with _ | ⟨p1, q1⟩
      · rw [hr] at h
        cases h
      · rw [hr] at h
        simp only [Option.map_some', Option.some.injEq, Prod.mk.injEq] at h
        obtain ⟨h1, h2⟩ := ih p1 q1 hr
        rw [← h.1, ← h.2]
        constructor
        · rw [List.cons_append, h1]
        · intro hmem
          rcases List.mem_cons.mp hmem with hh | hh
          · exact ham hh.symm
          · exact h2 hh

/-- An adc_enable call preserves the ADC invariant. -/
theorem ainv_enable (chan : Nat → Nat) (s : AState) (m : Nat) (h : AInv chan s) :
    AInv chan (adc_enable chan s m).1 := by
  obtain ⟨h1, h2, h3, h4⟩ := h
  rcases he : enableIns chan m s.list with _ | l2
  · simp only [adc_enable, he]
    exact ⟨h1, h2, h3, h4⟩
  · obtain ⟨hm1, hm2, hm3, hm4⟩ := enableIns_some chan m s.list l2 h1 he
    simp only [adc_enable, he]
    refine ⟨hm3, hm4 h2, ?_, ?_⟩
    · intro x hx
      show (if x = m then true else s.enabledF x) = true
      rcases (hm2 x).mp hx with hh | hh
      · rw [if_pos hh]
      · by_cases hxm : x = m
        · rw [if_pos hxm]
        · rw [if_neg hxm]
          exact h3 x hh
    · intro ch
      show (if ch = chan m then true else s.di ch) = true ↔ _
      by_cases hch : ch = chan m
      · rw [if_pos hch]
        simp only [true_iff]
        exact ⟨m, (hm2 m).mpr (Or.inl rfl), hch.symm⟩
      · rw [if_neg hch]
        rw [h4 ch]
        constructor
        · rintro ⟨x, hx1, hx2⟩
          exact ⟨x, (hm2 x).mpr (Or.inr hx1), hx2⟩
        · rintro ⟨x, hx1, hx2⟩
          rcases (hm2 x).mp hx1 with hh | hh
          · rw [hh] at hx2
            exact absurd hx2.symm hch
          · exact ⟨x, hh, hx2⟩

/-- Core of the adc_disable preservation argument, stated over an abstract
only-flag Boolean that decides whether the removed measurement was the last
one for its channel. -/
theorem ainv_disable_core (chan : Nat → Nat) (s : AState) (m : Nat)
    (bef aft : List Nat) (onlyb : Bool)
    (hsplit : s.list = bef ++ m :: aft) (hmbef : m ∉ bef) (h : AInv chan s)
    (honly : onlyb = true ↔ ∀ x ∈ bef ++ aft, chan x ≠ chan m) :
    AInv chan ⟨bef ++ aft,
      fun x => if x = m then false else s.enabledF x,
      fun ch => if onlyb = true ∧ ch = chan m then false else s.di ch⟩ := by
  obtain ⟨h1, h2, h3, h4⟩ := h
  rw [hsplit] at h1 h2 h3 h4
  have hsub : (bef ++ aft).Sublist (bef ++ m :: aft) :=
    List.Sublist.append_left (List.sublist_cons_self m aft) bef
  have hmaft : m ∉ aft := by
    have hnd : (m :: aft).Nodup := (List.sublist_append_right bef _).nodup h2
    exact (List.nodup_cons.mp hnd).1
  refine ⟨h1.sublist hsub, h2.sublist hsub, ?_, ?_⟩
  · intro x hx
    show (if x = m then false else s.enabledF x) = true
    have hxm : x ≠ m := by
      intro he
      rcases List.mem_append.mp hx with hh | hh
      · rw [he] at hh
        exact hmbef hh
      · rw [he] at hh
        exact hmaft hh
    rw [if_neg hxm]
    apply h3
    rcases List.mem_append.mp hx with hh | hh
    · exact List.mem_append_left _ hh
    · exact List.mem_append_right _ (List.mem_cons_of_mem m hh)
  · intro ch
    show (if onlyb = true ∧ ch = chan m then false else s.di ch) = true ↔ _
    by_cases hch : ch = chan m
    · by_cases ho : onlyb = true
      · rw [if_pos ⟨ho, hch⟩]
        simp only [Bool.false_eq_true, false_iff]
        rintro ⟨x, hx1, hx2⟩
        exact (honly.mp ho) x hx1 (by rw [hx2, hch])
      · rw [if_neg (fun hc => ho hc.1)]
        have hdi : s.di ch = true := by
          rw [h4 ch]
          exact ⟨m, List.mem_append_right _ (by simp), hch.symm⟩
        rw [hdi]
        simp only [true_iff]
        have hne : ¬ ∀ x ∈ bef ++ aft, chan x ≠ chan m := fun hall => ho (honly.mpr hall)
        push_neg at hne
        obtain ⟨x, hx1, hx2⟩ := hne
        exact ⟨x, hx1, by rw [hx2, hch]⟩
    · rw [if_neg (fun hc => hch hc.2)]
      rw [h4 ch]
      constructor
      · rintro ⟨x, hx1, hx2⟩
        rcases List.mem_append.mp hx1 with hh | hh
        · exact ⟨x, List.mem_append_left _ hh, hx2⟩
        · rcases List.mem_cons.mp hh with hx3 | hx3
          · rw [hx3] at hx2
            exact absurd hx2.symm hch
          · exact ⟨x, List.mem_append_right _ hx3, hx2⟩
      · rintro ⟨x, hx1, hx2⟩
        rcases List.mem_append.mp hx1 with hh | hh
        · exact ⟨x, List.mem_append_left _ hh, hx2⟩
        · exact ⟨x, List.mem_append_right _ (List.mem_cons_of_mem m hh), hx2⟩

/-- An adc_disable call preserves the ADC invariant. -/
theorem ainv_disable (chan : Nat → Nat) (s : AState) (m : Nat) (h : AInv chan s) :
    AInv chan (adc_disable chan s m).1 := by
  rcases hd : disableSplit m s.list with _ | ⟨bef, aft⟩
  · simp only [adc_disable, hd]
    exact h
  · obtain ⟨hsplit, hmbef⟩ := disableSplit_some m s.list bef aft hd
    simp only [adc_disable, hd]
    refine ainv_disable_core chan s m bef aft _ hsplit hmbef h ?_
    obtain ⟨h1, h2, h3, h4⟩ := h
    rw [hsplit] at h1
    have hmle : ∀ x ∈ aft, chan m ≤ chan x :=
      (List.pairwise_cons.mp (List.pairwise_append.mp h1).2.1).1
    have hps : aft.Pairwise (fun a b => chan a ≤ chan b) :=
      (List.pairwise_cons.mp (List.pairwise_append.mp h1).2.1).2
    rw [Bool.and_eq_true, decide_eq_true_iff, List.forall_mem_append]
    cases aft with
    | nil =>
      simp
    | cons a t =>
      show (∀ x ∈ bef, chan x ≠ chan m) ∧ decide (chan a ≠ chan m) = true ↔ _
      rw [decide_eq_true_iff]
      constructor
      · rintro ⟨hpre, hsuc⟩
        refine ⟨hpre, ?_⟩
        intro x hx
        rcases List.mem_cons.mp hx with hx1 | hx1
        · rw [hx1]
          exact hsuc
        · have h1x : chan m ≤ chan a := hmle a (by simp)
          have h2x : chan a ≤ chan x := (List.pairwise_cons.mp hps).1 x hx1
          intro he
          apply hsuc
          omega
      · rintro ⟨hpre, hsuc⟩
        exact ⟨hpre, hsuc a (by simp)⟩


/-- The invariant holds after every enable/disable sequence. -/
theorem ainv_run (chan : Nat → Nat) (ops : List AOp) : AInv chan (arun chan ops) := by
  suffices hgen : ∀ s : AState, AInv chan s → AInv chan (ops.foldl (astep chan) s) from
    hgen adc_reset (by
      refine ⟨by simp [adc_reset], by simp [adc_reset], by simp [adc_reset], ?_⟩
      intro ch
      simp [adc_reset])
  induction ops with
  | nil => exact fun s hs => hs
  | cons op rest ih =>
    intro s hs
    rw [List.foldl_cons]
    apply ih
    cases op with
    | en m => exact ainv_enable chan s m hs
    | dis m => exact ainv_disable chan s m hs

/-- C6 (intent): for every sequence of adc_enable and adc_disable calls
(with adc_disable embedded per the intent stated by the spec for the
non-compiling lines of adc.c), the digital input of a channel is disabled
exactly when at least one enabled measurement in the ADC list refers to
that channel. -/
theorem adc_digital_input_iff (chan : Nat → Nat) (ops : List AOp) :
    ∀ ch, (arun chan ops).di ch = true ↔
      ∃ m ∈ (arun chan ops).list,
        (arun chan ops).enabledF m = true ∧ chan m = ch := by
  obtain ⟨h1, h2, h3, h4⟩ := ainv_run chan ops
  intro ch
  rw [h4 ch]
  constructor
  · rintro ⟨m, hm1, hm2⟩
    exact ⟨m, hm1, h3 m hm1, hm2⟩
  · rintro ⟨m, hm1, _, hm2⟩
    exact ⟨m, hm1, hm2⟩


end AdcI

namespace AdcM

/-- The no-op loop of left_align_value never terminates once its variable
is nonzero: no fuel makes it return. -/
theorem leftAlignLoop_none (i v : Nat) :
    ∀ fuel, leftAlignLoop fuel (i + 1) v = none := by
  intro fuel
  induction fuel with
  | zero => rfl
  | succ f ih => exact ih

/-- A conversion run dies as soon as its tail dies. -/
theorem convRun_succ_none (fuel R n : Nat) (a a1 : Madc) (b : Bool)
    (hs : convStep fuel R a = some (a1, b)) (hrest : convRun fuel R n a1 = none) :
    convRun fuel R (n + 1) a = none := by
  simp only [convRun, hs, hrest]

/-- C5 (code bug): a measurement with oversamples 4 fed the constant raw
sample 1, starting right after a reload of oversamples_remaining, does not
latch anything during the next four conversions (the claim requires the
value 1*4 shifted left by 4, that is 64, to be latched and one completion
event posted at the fourth), and at the fifth conversion, when the latch
branch finally runs, left_align_value hangs: its loop variable ~4 = 251 is
never changed because the statements value << 1 and i << 2 have no effect,
so no fuel lets handle_completed_conversion return. -/
theorem adc_oversample_latch_diverges :
    (∀ fuel, convRun fuel 1 4 ⟨0, 0, 4, 4, true⟩ =
      some (⟨0, 4, 0, 4, true⟩, [false, false, false, false])) ∧
    (∀ fuel, convRun fuel 1 5 ⟨0, 0, 4, 4, true⟩ = none) := by
  constructor
  · intro fuel
    rfl
  · intro fuel
    have hstep5 : convStep fuel 1 (⟨0, 4, 0, 4, true⟩ : Madc) = none := by
      show handle_completed_conversion fuel ⟨0, 5, 0, 4, true⟩ = none
      simp only [handle_completed_conversion, left_align_value]
      rw [if_pos ⟨trivial, trivial⟩]
      have h251 : (255 - (⟨5, 0, 4, 4, true⟩ : Madc).oversamples % 256) = 250 + 1 := rfl
      rw [h251, leftAlignLoop_none]
    have g1 : convRun fuel 1 1 (⟨0, 4, 0, 4, true⟩ : Madc) = none := by
      simp only [convRun, hstep5]
    have e1 : convStep fuel 1 (⟨0, 0, 4, 4, true⟩ : Madc) =
        some (⟨0, 1, 3, 4, true⟩, false) := rfl
    have e2 : convStep fuel 1 (⟨0, 1, 3, 4, true⟩ : Madc) =
        some (⟨0, 2, 2, 4, true⟩, false) := rfl
    have e3 : convStep fuel 1 (⟨0, 2, 2, 4, true⟩ : Madc) =
        some (⟨0, 3, 1, 4, true⟩, false) := rfl
    have e4 : convStep fuel 1 (⟨0, 3, 1, 4, true⟩ : Madc) =
        some (⟨0, 4, 0, 4, true⟩, false) := rfl
    exact convRun_succ_none fuel 1 4 _ _ _ e1
      (convRun_succ_none fuel 1 3 _ _ _ e2
        (convRun_succ_none fuel 1 2 _ _ _ e3
          (convRun_succ_none fuel 1 1 _ _ _ e4 g1)))

end AdcM

namespace Spis

theorem take_set_succ (buf : List Nat) (i b : Nat) (h : i < buf.length) :
    (buf.set i b).take (i + 1) = buf.take i ++ [b] := by
  rw [List.set_eq_take_cons_drop b h]
  have hl : (buf.take i).length = i := List.length_take_of_le (Nat.le_of_lt h)
  rw [show i + 1 = (buf.take i).length + 1 by rw [hl]]
  rw [List.take_append]
  simp

/-- Consecutive writes amount to splicing the byte sequence into place. -/
theorem writeAll_eq :
    ∀ (Q buf : List Nat) (i : Nat), i + Q.length ≤ buf.length →
      writeAll buf i Q = buf.take i ++ Q ++ buf.drop (i + Q.length) := by
  intro Q
  induction Q with
  | nil =>
    intro buf i h
    simp [writeAll]
  | cons b q ih =>
    intro buf i h
    simp only [List.length_cons] at h
    have hib : i < buf.length := by omega
    show writeAll (buf.set i b) (i + 1) q = _
    rw [ih (buf.set i b) (i + 1) (by simp; omega)]
    rw [take_set_succ buf i b hib]
    rw [List.drop_set_of_lt b buf (by omega)]
    have he : i + 1 + q.length = i + (q.length + 1) := by omega
    rw [he]
    simp

/-- One interrupt invocation inside runBytes. -/
theorem runBytes_cons (ini : Nat) (upd : Nat → Nat → Nat) (b : Nat) (bs : List Nat)
    (s : Trx) :
    runBytes ini upd (b :: bs) s =
      ((runBytes ini upd bs (spi_tc_isr ini upd s b).1).1,
       (spi_tc_isr ini upd s b).2.2 ++ (runBytes ini upd bs (spi_tc_isr ini upd s b).1).2) :=
  rfl

/-- runBytes splits over list concatenation. -/
theorem runBytes_append (ini : Nat) (upd : Nat → Nat → Nat) :
    ∀ (l1 l2 : List Nat) (s : Trx),
      runBytes ini upd (l1 ++ l2) s =
        ((runBytes ini upd l2 (runBytes ini upd l1 s).1).1,
         (runBytes ini upd l1 s).2 ++ (runBytes ini upd l2 (runBytes ini upd l1 s).1).2) := by
  intro l1
  induction l1 with
  | nil =>
    intro l2 s
    rfl
  | cons b bs ih =>
    intro l2 s
    rw [List.cons_append, runBytes_cons, runBytes_cons, ih]
    simp [List.append_assoc]

/-- Feeding payload bytes while the expected size is not yet reached stores
them consecutively, accumulates the CRC, posts nothing and stays in the
receiving-payload state. -/
theorem runBytes_payload (ini : Nat) (upd : Nat → Nat → Nat) :
    ∀ (Q : List Nat) (s : Trx), s.status = .receivingPayload →
      s.rx_received + Q.length ≤ s.rx_size →
      runBytes ini upd Q s =
        ({ s with rx_buf := writeAll s.rx_buf s.rx_received Q,
                  rx_received := s.rx_received + Q.length,
                  crc := Q.foldl (crcStep upd) s.crc }, []) := by
  intro Q
  induction Q with
  | nil =>
    intro s _ _
    show (s, []) = _
    simp [writeAll]
  | cons b q ih =>
    intro s hst hsz
    obtain ⟨rt, rs, rb, c, rr, tb, tr, er, st⟩ := s
    simp only at hst
    subst hst
    simp only [List.length_cons] at hsz
    rw [runBytes_cons]
    have hlt : rr < rs := by omega
    simp only [spi_tc_isr, if_pos hlt]
    rw [ih _ rfl (by show rr + 1 + q.length ≤ rs; omega)]
    simp only [List.nil_append]
    congr 1
    simp only [writeAll]
    congr 1
    simp only [List.length_cons]
    omega

/-- After a terminal error the state machine only replays the stored error
code: no state change and no events, whatever else arrives. -/
theorem runBytes_waitEnd (ini : Nat) (upd : Nat → Nat → Nat) :
    ∀ (Q : List Nat) (s : Trx), s.status = .waitingForTransferToEnd →
      runBytes ini upd Q s = (s, []) := by
  intro Q
  induction Q with
  | nil =>
    intro s _
    rfl
  | cons b q ih =>
    intro s hst
    obtain ⟨rt, rs, rb, c, rr, tb, tr, er, st⟩ := s
    simp only at hst
    subst hst
    rw [runBytes_cons]
    simp only [spi_tc_isr]
    rw [ih _ rfl]
    rfl

end Spis

namespace Spis

/-- C2: from the Ready state, a framed request with type T and a payload P
of length at most SPIS_RX_BUF_SIZE whose footer is the CRC over
(T, length, P) is accepted: the payload lands byte-for-byte at the start of
rx_buf, rx_type and rx_size are set, exactly one SPIS_MESSAGE_RECEIVED
event is posted, and the machine waits for the callback. A size byte above
SPIS_RX_BUF_SIZE terminates the transfer with MESSAGE_TOO_LARGE, and a
mismatch in either footer byte terminates it with CRC_FAILURE. -/
theorem spis_framed_receive (ini : Nat) (upd : Nat → Nat → Nat) (T : Nat) (P : List Nat)
    (s0 : Trx) (hst : s0.status = .ready) (hbuf : s0.rx_buf.length = SPIS_RX_BUF_SIZE) :
    (P.length ≤ SPIS_RX_BUF_SIZE →
      (runBytes ini upd (frame ini upd T P) s0).1.status = .waitingForCallback ∧
      (runBytes ini upd (frame ini upd T P) s0).1.rx_type = T ∧
      (runBytes ini upd (frame ini upd T P) s0).1.rx_size = P.length ∧
      (runBytes ini upd (frame ini upd T P) s0).1.rx_buf.take P.length = P ∧
      (runBytes ini upd (frame ini upd T P) s0).2 = [SPIS_MESSAGE_RECEIVED]) ∧
    (∀ (m : Nat) (Q : List Nat), m > SPIS_RX_BUF_SIZE →
      (runBytes ini upd (T :: m :: Q) s0).1.status = .waitingForTransferToEnd ∧
      (runBytes ini upd (T :: m :: Q) s0).1.error_code_remaining =
        SPI_TYPE_ERR_MESSAGE_TOO_LARGE ∧
      (runBytes ini upd (T :: m :: Q) s0).2 = []) ∧
    (∀ hi lo : Nat, P.length ≤ SPIS_RX_BUF_SIZE →
      (hi ≠ crcOf ini upd (T :: P.length :: P) / 256 ∨
        (hi = crcOf ini upd (T :: P.length :: P) / 256 ∧
          lo ≠ crcOf ini upd (T :: P.length :: P) % 256)) →
      (runBytes ini upd (T :: P.length :: P ++ [hi, lo]) s0).1.status =
        .waitingForTransferToEnd ∧
      (runBytes ini upd (T :: P.length :: P ++ [hi, lo]) s0).1.error_code_remaining =
        SPI_TYPE_ERR_CRC_FAILURE ∧
      (runBytes ini upd (T :: P.length :: P ++ [hi, lo]) s0).2 = []) := by
  obtain ⟨rt0, rs0, rb0, c0, rr0, tb0, tr0, er0, st0⟩ := s0
  simp only at hst hbuf
  subst hst
  refine ⟨?_, ?_, ?_⟩
  · intro h1
    rw [show frame ini upd T P = T :: P.length ::
      (P ++ [crcOf ini upd (T :: P.length :: P) / 256,
             crcOf ini upd (T :: P.length :: P) % 256]) from rfl]
    rw [runBytes_cons]
    simp only [spi_tc_isr]
    rw [runBytes_cons]
    simp only [spi_tc_isr]
    rw [if_neg (Nat.not_lt.mpr h1)]
    rw [runBytes_append]
    rw [runBytes_payload ini upd P _ rfl (by show 0 + P.length ≤ P.length; omega)]
    rw [runBytes_cons]
    simp only [spi_tc_isr]
    rw [if_neg (show ¬ (0 + P.length < P.length) by omega)]
    simp only [rxFooter0Step]
    rw [if_neg (show ¬ (P.foldl (crcStep upd)
      (crcStep upd (crcStep upd (ini % 65536) T) P.length) / 256 ≠
      crcOf ini upd (T :: P.length :: P) / 256) from fun hne => hne rfl)]
    rw [runBytes_cons]
    simp only [spi_tc_isr]
    rw [if_neg (show ¬ (P.foldl (crcStep upd)
      (crcStep upd (crcStep upd (ini % 65536) T) P.length) % 256 ≠
      crcOf ini upd (T :: P.length :: P) % 256) from fun hne => hne rfl)]
    refine ⟨rfl, rfl, rfl, ?_, rfl⟩
    show (writeAll rb0 0 P).take P.length = P
    rw [writeAll_eq P rb0 0 (by simp only [SPIS_RX_BUF_SIZE] at hbuf h1; omega)]
    simp only [List.take_zero, List.nil_append]
    exact List.take_left P _
  · intro m Q hm
    rw [runBytes_cons]
    simp only [spi_tc_isr]
    rw [runBytes_cons]
    simp only [spi_tc_isr]
    rw [if_pos hm]
    simp only [end_transfer]
    rw [runBytes_waitEnd ini upd Q _ rfl]
    exact ⟨rfl, rfl, rfl⟩
  · intro hi lo h1 hmm
    rw [show (T :: P.length :: P ++ [hi, lo]) =
      T :: P.length :: (P ++ [hi, lo]) by simp]
    rw [runBytes_cons]
    simp only [spi_tc_isr]
    rw [runBytes_cons]
    simp only [spi_tc_isr]
    rw [if_neg (Nat.not_lt.mpr h1)]
    rw [runBytes_append]
    rw [runBytes_payload ini upd P _ rfl (by show 0 + P.length ≤ P.length; omega)]
    rw [runBytes_cons]
    simp only [spi_tc_isr]
    rw [if_neg (show ¬ (0 + P.length < P.length) by omega)]
    simp only [rxFooter0Step]
    have hcrc : crcOf ini upd (T :: P.length :: P) =
        P.foldl (crcStep upd) (crcStep upd (crcStep upd (ini % 65536) T) P.length) := rfl
    rcases hmm with hne | ⟨heq, hne⟩
    · rw [if_pos (show P.foldl (crcStep upd)
        (crcStep upd (crcStep upd (ini % 65536) T) P.length) / 256 ≠ hi from
        fun he => hne (by rw [hcrc, he]))]
      simp only [end_transfer]
      rw [runBytes_cons]
      simp only [spi_tc_isr]
      rw [show runBytes ini upd [] _ = (_, []) from rfl]
      exact ⟨rfl, rfl, rfl⟩
    · rw [if_neg (show ¬ (P.foldl (crcStep upd)
        (crcStep upd (crcStep upd (ini % 65536) T) P.length) / 256 ≠ hi) from
        fun hh => hh (by rw [heq, hcrc]))]
      rw [runBytes_cons]
      simp only [spi_tc_isr]
      rw [if_pos (show P.foldl (crcStep upd)
        (crcStep upd (crcStep upd (ini % 65536) T) P.length) % 256 ≠ lo from
        fun he => hne (by rw [hcrc, he]))]
      simp only [end_transfer]
      exact ⟨rfl, rfl, rfl⟩

end Spis

namespace Spis

/-- Witness for C2 at a concrete frame: type 16, payload [170, 187], an
arbitrary concrete CRC primitive, an oversized size byte 33, and a
corrupted first footer byte 8. -/
theorem spis_framed_receive_witness :
    ((runBytes 7 (fun c b => c * 31 + b)
        (frame 7 (fun c b => c * 31 + b) 16 [170, 187]) spis_reset).1.status =
          .waitingForCallback ∧
      (runBytes 7 (fun c b => c * 31 + b)
        (frame 7 (fun c b => c * 31 + b) 16 [170, 187]) spis_reset).1.rx_type = 16 ∧
      (runBytes 7 (fun c b => c * 31 + b)
        (frame 7 (fun c b => c * 31 + b) 16 [170, 187]) spis_reset).1.rx_size =
          [170, 187].length ∧
      (runBytes 7 (fun c b => c * 31 + b)
        (frame 7 (fun c b => c * 31 + b) 16 [170, 187]) spis_reset).1.rx_buf.take
          [170, 187].length = [170, 187] ∧
      (runBytes 7 (fun c b => c * 31 + b)
        (frame 7 (fun c b => c * 31 + b) 16 [170, 187]) spis_reset).2 =
          [SPIS_MESSAGE_RECEIVED]) ∧
    ((runBytes 7 (fun c b => c * 31 + b) (16 :: 33 :: [1, 2]) spis_reset).1.status =
        .waitingForTransferToEnd ∧
      (runBytes 7 (fun c b => c * 31 + b)
        (16 :: 33 :: [1, 2]) spis_reset).1.error_code_remaining =
          SPI_TYPE_ERR_MESSAGE_TOO_LARGE ∧
      (runBytes 7 (fun c b => c * 31 + b) (16 :: 33 :: [1, 2]) spis_reset).2 = []) ∧
    ((runBytes 7 (fun c b => c * 31 + b)
        (16 :: [170, 187].length :: [170, 187] ++ [8, 0]) spis_reset).1.status =
          .waitingForTransferToEnd ∧
      (runBytes 7 (fun c b => c * 31 + b)
        (16 :: [170, 187].length :: [170, 187] ++ [8, 0]) spis_reset).1.error_code_remaining =
          SPI_TYPE_ERR_CRC_FAILURE ∧
      (runBytes 7 (fun c b => c * 31 + b)
        (16 :: [170, 187].length :: [170, 187] ++ [8, 0]) spis_reset).2 = []) := by
  refine ⟨?_, ?_, ?_⟩
  · exact (spis_framed_receive 7 (fun c b => c * 31 + b) 16 [170, 187] spis_reset
      rfl (by decide)).1 (by decide)
  · exact (spis_framed_receive 7 (fun c b => c * 31 + b) 16 [170, 187] spis_reset
      rfl (by decide)).2.1 33 [1, 2] (by decide)
  · exact (spis_framed_receive 7 (fun c b => c * 31 + b) 16 [170, 187] spis_reset
      rfl (by decide)).2.2 8 0 (by decide) (Or.inl (by decide))

end Spis

namespace Spim

/-- C3 (code bug): with two framed transfers queued and the slave answering
a byte other than TYPE_RX_PROCESSING at the wait before the first CRC
footer byte (and at the next wait), the missing goto start at
spi_master.c line 325 makes the process, after correctly terminating
transfer 1 with ERR_SLAVE_NOT_READY, keep running the protocol body against
the shifted queue: transfer 2 also gets terminated with
ERR_SLAVE_NOT_READY and the queue is emptied, although transfer 2 was
never transmitted, where the claim requires exactly one queue shift per
termination with the next queued transfer proceeding normally. -/
theorem spim_missing_goto_double_termination :
    (mrun 0 (fun c b => c + b) [0, 0, 243, 243] demoInit).events =
      [(1, SPIM_TRX_ERR_SLAVE_NOT_READY), (2, SPIM_TRX_ERR_SLAVE_NOT_READY)] ∧
    (mrun 0 (fun c b => c + b) [0, 0, 243, 243] demoInit).queue = [] ∧
    (mrun 0 (fun c b => c + b) [0, 0, 243, 243] demoInit).pc = .idle := by
  decide

end Spim
